import Mathlib

/-!
# Verification of the PDF-OCR normalization-and-reconciliation core

Shallow embedding of the helper functions of
`src/frontend/src/components/OCRUpload.jsx`:

* `_cleanFeeString`  (FeeStringRepair)
* `normalizeDiagRow` (RowNormalizer, diagnosis variant)
* `normalizeTables`  (TableShapeNormalizer)
* the ICD-token collector of `PatientBlock` (CodeHighlighter)
* `dedupeAndMergePatients` (PatientReconciler)
* `buildItemFromResponse` / `ResultBlock` (ResultAssembler)

JavaScript runtime values are modelled by the inductive type `JVal`
(`undefined` is modelled as the absence of a value, i.e. `Option JVal`
on lookups; JS numbers are modelled as integers — no claim involves
fractional numerics or NaN).  JS objects are modelled as insertion-ordered
association lists; the ECMAScript reordering of array-index-like keys in
`Object.keys` is not modelled (no claim depends on it: the only key sets
involved are either non-numeric or already in ascending numeric order).
-/

/-- A JavaScript runtime value.  `undefined` is represented by absence
(`Option JVal` / missing object entry), matching how the source only ever
observes `undefined` through failed lookups. -/
inductive JVal where
  | null : JVal
  | bool : Bool → JVal
  | num : Int → JVal
  | str : String → JVal
  | arr : List JVal → JVal
  | obj : List (String × JVal) → JVal

/-- A patient record / plain JS object: insertion-ordered field list. -/
abbrev Rec := List (String × JVal)

/-- JS truthiness (`Boolean(v)`); arrays and objects are always truthy. -/
def truthy : JVal → Bool
  | JVal.null => false
  | JVal.bool b => b
  | JVal.num n => n ≠ 0
  | JVal.str s => s ≠ ""
  | JVal.arr _ => true
  | JVal.obj _ => true

/-- `Array.isArray`. -/
def isArrV : JVal → Bool
  | JVal.arr _ => true
  | _ => false

/-- First-occurrence lookup in an association list (JS property read on an
object; a missing key yields `none`, i.e. `undefined`). -/
def objGet : Rec → String → Option JVal
  | [], _ => none
  | (k', v) :: rest, k => if k' = k then some v else objGet rest k

/-- JS property write: replaces the value in place if the key exists
(keeping its position) and appends the key otherwise. -/
def objSet : Rec → String → JVal → Rec
  | [], k, v => [(k, v)]
  | (k', v') :: rest, k, v =>
    if k' = k then (k, v) :: rest else (k', v') :: objSet rest k v

/-- Digit run to a natural number. -/
def digitsToNat (l : List Char) : Nat :=
  l.foldl (fun n c => n * 10 + (c.toNat - '0'.toNat)) 0

/-- A canonical array index key: a digit string with no superfluous leading
zero (JS treats `"01"` as a plain property name, not an index). -/
def parseIndex? (k : String) : Option Nat :=
  if !k.data.isEmpty && k.data.all Char.isDigit
      && toString (digitsToNat k.data) = k then
    some (digitsToNat k.data)
  else none

/-- JS property read on a non-`null` base value (`v[k]`): objects look the
key up, arrays and strings answer canonical index keys, every other
non-`null` base is boxed and has no own properties that the source ever
probes.  A read whose base is `null` raises `TypeError`; the assembler
functions below, the only place the source can feed `null` bases, model
those reads as `Except.error` before ever calling this total reader, so
the catch-all arm here only serves non-`null` primitives. -/
def objGetV : JVal → String → Option JVal
  | JVal.obj fs, k => objGet fs k
  | JVal.arr xs, k =>
    match parseIndex? k with
    | some i => xs.get? i
    | none => none
  | JVal.str s, k =>
    match parseIndex? k with
    | some i => (s.data.get? i).map (fun c => JVal.str (String.mk [c]))
    | none => none
  | _, _ => none

/-- `a || b` where `a` is a (possibly failed) property read. -/
def jsOrO (a : Option JVal) (b : JVal) : JVal :=
  match a with
  | some v => if truthy v then v else b
  | none => b

/-- `a ?? b` (nullish coalescing) where `a` is a property read. -/
def nn (a : Option JVal) (b : JVal) : JVal :=
  match a with
  | some JVal.null => b
  | some v => v
  | none => b

mutual
/-- JS `String(v)` / `v.toString()`.  Arrays join their elements with `,`
(`null` elements become empty text), plain objects print as
`[object Object]`.  (`String(null)` is `"null"`; the source only converts
values that passed a truthiness test, plus the empty string.) -/
def jsToString : JVal → String
  | JVal.null => "null"
  | JVal.bool b => if b then "true" else "false"
  | JVal.num n => toString n
  | JVal.str s => s
  | JVal.obj _ => "[object Object]"
  | JVal.arr xs => jsArrToString xs

/-- `Array.prototype.toString`: elements joined by `,`. -/
def jsArrToString : List JVal → String
  | [] => ""
  | [v] => jsElemToString v
  | v :: w :: rest => jsElemToString v ++ "," ++ jsArrToString (w :: rest)

/-- One array element inside a join: `null` prints empty. -/
def jsElemToString : JVal → String
  | JVal.null => ""
  | JVal.bool b => if b then "true" else "false"
  | JVal.num n => toString n
  | JVal.str s => s
  | JVal.obj _ => "[object Object]"
  | JVal.arr xs => jsArrToString xs
end

/-- Escape for a character inside a JSON string literal (quote and
backslash; control-character escapes are not modelled — no claim feeds
control characters to the serializer). -/
def jsonEscapeChar (c : Char) : String :=
  if c = '"' then "\\\"" else if c = '\\' then "\\\\" else String.mk [c]

/-- JSON string literal. -/
def jsonQuote (s : String) : String :=
  "\"" ++ String.join (s.data.map jsonEscapeChar) ++ "\""

mutual
/-- `JSON.stringify` (used only to build the 80-character fallback identity
fingerprint). -/
def jsonStringify : JVal → String
  | JVal.null => "null"
  | JVal.bool b => if b then "true" else "false"
  | JVal.num n => toString n
  | JVal.str s => jsonQuote s
  | JVal.arr xs => "[" ++ jsonArrBody xs ++ "]"
  | JVal.obj fs => "\x7b" ++ jsonObjBody fs ++ "\x7d"

def jsonArrBody : List JVal → String
  | [] => ""
  | [v] => jsonStringify v
  | v :: w :: rest => jsonStringify v ++ "," ++ jsonArrBody (w :: rest)

def jsonObjBody : List (String × JVal) → String
  | [] => ""
  | [(k, v)] => jsonQuote k ++ ":" ++ jsonStringify v
  | (k, v) :: e :: rest =>
    jsonQuote k ++ ":" ++ jsonStringify v ++ "," ++ jsonObjBody (e :: rest)
end

/-! ## FeeStringRepair (`_cleanFeeString`) -/

/-- The JS `\s` whitespace class (the characters that can actually occur in
the modelled inputs). -/
def isWsChar (c : Char) : Bool :=
  c = ' ' || c = '\t' || c = '\n' || c = '\r' || c = '\x0b' || c = '\x0c'

/-- `String.prototype.trim`. -/
def trimL (l : List Char) : List Char :=
  ((l.dropWhile isWsChar).reverse.dropWhile isWsChar).reverse

/-- `String.prototype.trim` on packed strings. -/
def trimStr (s : String) : String := String.mk (trimL s.data)

/-- `raw.replace(/\s+/g, " ")`: every whitespace run becomes one space.
The flag records whether the previous character was whitespace. -/
def collapseWsAux : Bool → List Char → List Char
  | _, [] => []
  | inWs, c :: rest =>
    if isWsChar c then
      if inWs then collapseWsAux true rest
      else ' ' :: collapseWsAux true rest
    else c :: collapseWsAux false rest

def collapseWs (l : List Char) : List Char := collapseWsAux false l

/-- The leading-noise class of `raw.replace(/^[\|\[\(]+/, "")`. -/
def isNoiseChar (c : Char) : Bool := c = '|' || c = '[' || c = '('

def headIsDigit : List Char → Bool
  | c :: _ => c.isDigit
  | [] => false

/-- `raw.replace(/(\d)\s+(\d{2}\.\d{2})$/, "$1$2")`.  Because the match is
anchored at the end, it fires exactly when the text ends in
`digit whitespace⁺ digit digit . digit digit`; the whitespace run is
removed. -/
def joinSplitFee (l : List Char) : List Char :=
  match l.reverse with
  | d5 :: d4 :: c3 :: d3 :: d2 :: rest =>
    if d5.isDigit && d4.isDigit && c3 = '.' && d3.isDigit && d2.isDigit
        && !(rest.takeWhile isWsChar).isEmpty
        && headIsDigit (rest.dropWhile isWsChar) then
      (d5 :: d4 :: c3 :: d3 :: d2 :: rest.dropWhile isWsChar).reverse
    else l
  | _ => l

/-- Exactly `. digit digit`. -/
def dotDD : List Char → Bool
  | c :: a :: b :: [] => c = '.' && a.isDigit && b.isDigit
  | _ => false

/-- `raw.replace(/^0+(\.\d{2})$/, "0$1")`: a whole-string run of zeros
followed by `.dd` collapses to a single zero. -/
def zeroCollapse (l : List Char) : List Char :=
  if !(l.takeWhile (fun c => c = '0')).isEmpty
      && dotDD (l.dropWhile (fun c => c = '0')) then
    '0' :: l.dropWhile (fun c => c = '0')
  else l

/-- Does the text begin with two zero characters?  (The failure shape of
the zero-collapse rule when it is reached only on a second pass.) -/
def startsDoubleZero : List Char → Bool
  | x :: y :: _ => x = '0' && y = '0'
  | _ => false

/-- All-digit texts longer than two characters get a decimal point two
characters from the end. -/
def insertDec (l : List Char) : List Char :=
  if l.all Char.isDigit && l.length > 2 then
    l.take (l.length - 2) ++ '.' :: l.drop (l.length - 2)
  else l

/-- Ends in `. digit digit` (`/\.\d{2}$/`). -/
def endsInDot2 (l : List Char) : Bool :=
  match l.reverse with
  | b :: a :: c :: _ => c = '.' && a.isDigit && b.isDigit
  | _ => false

/-- Shape of the part after the integer digits for `/^\d+(\.\d+)?$/`. -/
def fracShapeOk : List Char → Bool
  | [] => true
  | c :: frac => c = '.' && !frac.isEmpty && frac.all Char.isDigit

/-- `/^\d+(\.\d+)?$/`. -/
def isNumShape (l : List Char) : Bool :=
  !(l.takeWhile Char.isDigit).isEmpty && fracShapeOk (l.dropWhile Char.isDigit)

/-- The final padding step: numbers not already ending in two decimals get
`.00` appended (no decimal point) or a trailing `0` (one decimal digit). -/
def padDecimals (l : List Char) : List Char :=
  if isNumShape l && !endsInDot2 l then
    match l.dropWhile Char.isDigit with
    | [] => l ++ ['.', '0', '0']
    | _ :: frac => if frac.length = 1 then l ++ ['0'] else l
  else l

/-- `_cleanFeeString` on the character list of an already-stringified
value: trim, collapse whitespace, strip leading noise, join a split fee
tail, collapse a zero run, insert a decimal point, pad decimals — in the
source's order. -/
def cleanFeeList (l : List Char) : List Char :=
  if (trimL l).isEmpty then []
  else
    padDecimals (insertDec (zeroCollapse (joinSplitFee
      ((collapseWs (trimL l)).dropWhile isNoiseChar))))

/-- `_cleanFeeString` on packed strings. -/
def cleanFeeStr (s : String) : String := String.mk (cleanFeeList s.data)

/-- `_cleanFeeString` as in the source: `undefined`/`null` yield empty
text, every other value is stringified first. -/
def cleanFeeScalar : Option JVal → String
  | none => ""
  | some JVal.null => ""
  | some v => cleanFeeStr (jsToString v)

/-! ## TableShapeNormalizer (`normalizeTables`) -/

/-- `Object.entries` (also the shape `{...v}` spreads): objects expose
their fields, arrays and strings their indexed elements, other base
values nothing. -/
def jsEntries : JVal → List (String × JVal)
  | JVal.obj fs => fs
  | JVal.arr xs => xs.enum.map (fun ic => (toString ic.1, ic.2))
  | JVal.str s =>
    s.data.enum.map (fun ic => (toString ic.1, JVal.str (String.mk [ic.2])))
  | _ => []

/-- `Object.keys` yields each key once; the flag list carries the keys
already produced. -/
def dedupKeysAux (seen : List String) : List String → List String
  | [] => []
  | k :: rest =>
    if k ∈ seen then dedupKeysAux seen rest
    else k :: dedupKeysAux (k :: seen) rest

/-- `Number(k)` on a property key, as far as the source exercises it:
optionally signed decimal integers (empty/blank text is `0`); any other
text is NaN, i.e. `none`.  (Fractional, hex and exponent forms are not
modelled — no claim involves such keys.) -/
def jsNumber? (s : String) : Option Int :=
  let t := trimL s.data
  if t.isEmpty then some 0
  else
    match t with
    | '-' :: ds =>
      if !ds.isEmpty && ds.all Char.isDigit then some (-(digitsToNat ds : Int))
      else none
    | '+' :: ds =>
      if !ds.isEmpty && ds.all Char.isDigit then some (digitsToNat ds : Int)
      else none
    | ds =>
      if ds.all Char.isDigit then some (digitsToNat ds : Int) else none

/-- The sort comparator of `normalizeTables`: numeric when both keys parse
as numbers (`na - nb`), lexicographic (`localeCompare`) otherwise. -/
def jsKeyLE (a b : String) : Bool :=
  match jsNumber? a, jsNumber? b with
  | some x, some y => x ≤ y
  | _, _ => a ≤ b

/-- Stable insertion for the key sort. -/
def insertKey (k : String) : List String → List String
  | [] => [k]
  | x :: rest => if jsKeyLE k x then k :: x :: rest else x :: insertKey k rest

/-- `Array.prototype.sort` with the comparator above (modelled as a stable
insertion sort). -/
def sortKeys : List String → List String
  | [] => []
  | k :: rest => insertKey k (sortKeys rest)

/-- Canonicalization of one section value: `null`/`undefined` → empty
rows, array → passthrough, object → projection of the values in sorted key
order, any other scalar → one-element wrap.  Each branch of the source
assigns this to `out[sec]`. -/
def normalizeRowsV : JVal → JVal
  | JVal.null => JVal.arr []
  | JVal.arr xs => JVal.arr xs
  | JVal.obj fs =>
    JVal.arr ((sortKeys (dedupKeysAux [] (fs.map Prod.fst))).map
      (fun k => (objGet fs k).getD JVal.null))
  | v => JVal.arr [v]

/-- `normalizeTables`: a falsy input yields the empty table set, a bare
array becomes the sole `"Procedures"` section, and a mapping has each
entry's value canonicalized independently.  (A truthy string input
enumerates its characters, as `Object.entries` does.) -/
def normalizeTables (tables : JVal) : List (String × JVal) :=
  if truthy tables = false then []
  else
    match tables with
    | JVal.arr xs => [("Procedures", JVal.arr xs)]
    | t => (jsEntries t).map (fun kv => (kv.1, normalizeRowsV kv.2))

/-! ## RowNormalizer, diagnosis variant (`normalizeDiagRow`) -/

/-- `normalizeDiagRow`: falsy rows yield the default triple; array rows
pass positions 0/1/2 through `??`-defaulting only; any other truthy value
is probed as a mapping and its code/diagnosis are stringified and
trimmed. -/
def normalizeDiagRow (r : JVal) : JVal × JVal × JVal :=
  if truthy r = false then (JVal.str "ICD-10", JVal.str "", JVal.str "")
  else
    match r with
    | JVal.arr xs =>
      (nn (xs.get? 0) (JVal.str "ICD-10"),
       nn (xs.get? 1) (JVal.str ""),
       nn (xs.get? 2) (JVal.str ""))
    | _ =>
      let typ := nn (objGetV r "Type") (nn (objGetV r "type")
        (nn (objGetV r "0") (JVal.str "ICD-10")))
      let code := nn (objGetV r "Code") (nn (objGetV r "code")
        (nn (objGetV r "1") (JVal.str "")))
      let diag := nn (objGetV r "Diagnosis") (nn (objGetV r "diagnosis")
        (nn (objGetV r "Description") (nn (objGetV r "description")
          (nn (objGetV r "2") (JVal.str "")))))
      (typ, JVal.str (trimStr (jsToString code)),
       JVal.str (trimStr (jsToString diag)))

/-! ## CodeHighlighter (the ICD-token collector of `PatientBlock`) -/

/-- The JS `\w` word class (`[A-Za-z0-9_]`, ASCII). -/
def isWordChar (c : Char) : Bool := c.isAlpha || c.isDigit || c = '_'

/-- Characters admitted by the dot-suffix class `[0-9A-Z]`. -/
def isCodeTailChar (c : Char) : Bool := c.isDigit || c.isUpper

/-- `\b` on the right edge: end of input or a non-word character next. -/
def nonWordOrEnd : List Char → Bool
  | [] => true
  | c :: _ => !isWordChar c

/-- The tail of an attempted match of `[A-Z][0-9]{2,3}(?:\.[0-9A-Z]+)?\b`
after the uppercase letter and its digit run: the compiled form of the
regex backtracking.  A maximal dot-suffix whose following character is a
word character cannot be saved by a shorter suffix (the dropped character
would itself be a word character), so the engine falls back to ending the
match after the digits, which needs the next character to be a non-word
character (a `.` always is). -/
def matchTail (c : Char) (ds rest2 : List Char) :
    Option (String × List Char) :=
  match rest2 with
  | [] => some (String.mk (c :: ds), [])
  | d :: rest3 =>
    if d = '.' then
      if !(rest3.takeWhile isCodeTailChar).isEmpty
          && nonWordOrEnd (rest3.dropWhile isCodeTailChar) then
        some (String.mk (c :: (ds ++ '.' :: rest3.takeWhile isCodeTailChar)),
          rest3.dropWhile isCodeTailChar)
      else some (String.mk (c :: ds), d :: rest3)
    else if isWordChar d then none
    else some (String.mk (c :: ds), d :: rest3)

/-- One attempted match of `[A-Z][0-9]{2,3}(?:\.[0-9A-Z]+)?\b` at the
current position (the left `\b` is checked by the caller).  `{2,3}` is
greedy but a digit run of any other length can never be completed: a
shorter attempt is followed by a further digit, which is a word character
and kills the trailing `\b`. -/
def matchAt : List Char → Option (String × List Char)
  | [] => none
  | c :: rest =>
    if c.isUpper then
      if (rest.takeWhile Char.isDigit).length = 2
          || (rest.takeWhile Char.isDigit).length = 3 then
        matchTail c (rest.takeWhile Char.isDigit) (rest.dropWhile Char.isDigit)
      else none
    else none

/-- The global scan (`str.match(icdRegex)`): the leading `\b` is tracked
through `prevW` (whether the previous character is a word character); a
failed position advances by one character, a successful match resumes
right after the match.  The fuel argument only forces structural
recursion: by `matchAt_rem_length` every step strictly shrinks the text,
so any fuel of at least the text's length yields the same result
(`scanCodesAux_fuel`). -/
def scanCodesAux : Nat → Bool → List Char → List String
  | 0, _, _ => []
  | _, _, [] => []
  | fuel + 1, prevW, c :: rest =>
    match matchAt (c :: rest) with
    | some (tok, rem) =>
      if prevW then scanCodesAux fuel (isWordChar c) rest
      else tok :: scanCodesAux fuel true rem
    | none => scanCodesAux fuel (isWordChar c) rest

def scanCodes (prevW : Bool) (l : List Char) : List String :=
  scanCodesAux l.length prevW l

/-- A standalone diagnosis-code-shaped text: one uppercase letter, a full
run of exactly two or three digits, optionally a dot followed by a
nonempty run of digits/uppercase letters — the whole-string form of the
highlight pattern. -/
def isCodeTokenL : List Char → Bool
  | [] => false
  | c :: rest =>
    c.isUpper &&
    ((rest.takeWhile Char.isDigit).length = 2
      || (rest.takeWhile Char.isDigit).length = 3) &&
    (match rest.dropWhile Char.isDigit with
     | [] => true
     | d :: t => d = '.' && !t.isEmpty && t.all isCodeTailChar)

def isCodeToken (s : String) : Bool := isCodeTokenL s.data

/-- `Set.prototype.add`: append if not already present. -/
def addUnique (acc : List String) (s : String) : List String :=
  if s ∈ acc then acc else acc ++ [s]

/-- One field of the highlight collector: stringify the value
(`String(v || "")`), scan it, and add each trimmed match to the set. -/
def highlightStep (acc : List String) (kv : String × JVal) : List String :=
  ((scanCodes false (jsToString (jsOrO (some kv.2) (JVal.str ""))).data).map
    trimStr).foldl addUnique acc

/-- The highlight collector of `PatientBlock`, over every field value of
the patient.  (The source's per-field `try`/`catch` never fires for
modelled values: `jsToString` is total.) -/
def highlightCodes (patient : Rec) : List String :=
  patient.foldl highlightStep []

/-! ## PatientReconciler (`dedupeAndMergePatients`) -/

/-- First-occurrence lookup in a generic association list (the `Map` of
`dedupeAndMergePatients`). -/
def assocGet {α : Type} : List (String × α) → String → Option α
  | [], _ => none
  | (k', v) :: rest, k => if k' = k then some v else assocGet rest k

/-- `Map.set` on an existing key keeps the entry's position. -/
def assocSet {α : Type} : List (String × α) → String → α → List (String × α)
  | [], k, v => [(k, v)]
  | (k', v') :: rest, k, v =>
    if k' = k then (k, v) :: rest else (k', v') :: assocSet rest k v

/-- The identity key of a raw patient record:
`(p["Patient Name"] || p["Patient"] || "").toString().trim()`, else the
subscriber chain, else the first 80 characters of the record's JSON
serialization. -/
def identityKey (p : JVal) : String :=
  let name := trimStr (jsToString (jsOrO (objGetV p "Patient Name")
    (jsOrO (objGetV p "Patient") (JVal.str ""))))
  let sub := trimStr (jsToString (jsOrO (objGetV p "Subscriber ID")
    (jsOrO (objGetV p "SubscriberId")
      (jsOrO (objGetV p "Subscriber") (JVal.str "")))))
  if name ≠ "" then name
  else if sub ≠ "" then sub
  else (jsonStringify p).take 80

/-- `if (clone[k] && !Array.isArray(clone[k])) clone[k] = [clone[k]]`. -/
def wrapIfScalar (r : Rec) (k : String) : Rec :=
  match objGet r k with
  | some v => if truthy v && !isArrV v then objSet r k (JVal.arr [v]) else r
  | none => r

/-- The first-seen clone: `{ ...p }` (a field-by-field shallow copy,
modelled by the record's own entry list) with the two pre-attached table
fields forced to arrays.  Only the two `"(All Tables)"` names are
wrapped. -/
def wrapReserved (r : Rec) : Rec :=
  wrapIfScalar (wrapIfScalar r "Procedure / Billing (All Tables)")
    "Diagnosis (All Tables)"

/-- Is the stored value one of
`undefined` / `null` / `"NIL"` / `""` (the merge's absent test
`existing[k] === undefined || existing[k] === null ||
existing[k] === "NIL" || existing[k] === ""`)? -/
def mergeAbsent : Option JVal → Bool
  | none => true
  | some JVal.null => true
  | some (JVal.str s) => s = "NIL" || s = ""
  | _ => false

/-- One field of the merge loop: the four `if`/`else if` branches of the
source, in order.  `ex` is the field of the existing record (`none` =
`undefined`), `v` the incoming value; the result is the new field (`none`
= still absent, i.e. no branch assigned). -/
def mergeField (ex : Option JVal) (v : JVal) : Option JVal :=
  if mergeAbsent ex && truthy v then some v
  else
    match ex, v with
    | some (JVal.arr xs), JVal.arr ys => some (JVal.arr (xs ++ ys))
    | some (JVal.arr xs), w =>
      if truthy w then some (JVal.arr (xs ++ [w])) else some (JVal.arr xs)
    | some e, JVal.arr ys =>
      some (JVal.arr ((if truthy e then [e] else []) ++ ys))
    | none, JVal.arr ys => some (JVal.arr (([] : List JVal) ++ ys))
    | some e, _ => some e
    | none, _ => none

/-- One step of `for (const k of Object.keys(p))`: read `p[k]`, merge it
into the field, and store the result (storing an unchanged value back is
the identity on lookups). -/
def mergeStep (p : JVal) (r : Rec) (k : String) : Rec :=
  match objGetV p k with
  | none => r
  | some v =>
    match mergeField (objGet r k) v with
    | none => r
    | some w => objSet r k w

/-- Merge an incoming raw record `p` into the working record `ex`, field
by field over `Object.keys(p)`. -/
def mergeRec (ex : Rec) (p : JVal) : Rec :=
  (dedupKeysAux [] ((jsEntries p).map Prod.fst)).foldl (mergeStep p) ex

/-- One loop iteration of `dedupeAndMergePatients`: unseen keys store a
wrapped clone (in insertion order), seen keys merge in place. -/
def dedupeStep (acc : List (String × Rec)) (p : JVal) : List (String × Rec) :=
  match assocGet acc (identityKey p) with
  | none => acc ++ [(identityKey p, wrapReserved (jsEntries p))]
  | some ex => assocSet acc (identityKey p) (mergeRec ex p)

/-- `dedupeAndMergePatients`: group the raw records by identity key and
return the working records in first-seen order.  (The source's
`!Array.isArray(patients)` guard is reflected in the list-typed input:
its only caller passes an array.) -/
def dedupeAndMergePatients (ps : List JVal) : List Rec :=
  (ps.foldl dedupeStep []).map Prod.snd

/-- Analysis helper for the merge: the atoms stored in a record slot —
the elements of a sequence value, the value itself for any other present
value, nothing for an absent slot. -/
def atomsOf : Option JVal → List JVal
  | none => []
  | some (JVal.arr xs) => xs
  | some v => [v]

/-- Analysis helper: is the atom one of the placeholder shapes
(`null`, the empty text, or `"NIL"`)? -/
def placeholderAtom : JVal → Bool
  | JVal.null => true
  | JVal.str s => s = "" || s = "NIL"
  | _ => false

/-- Analysis helper: is the value a text or a sequence? -/
def strOrArrV : JVal → Bool
  | JVal.str _ => true
  | JVal.arr _ => true
  | _ => false

/-- Analysis helper: is the (optional) slot absent, a text, or a
sequence? -/
def strOrArrOpt : Option JVal → Bool
  | none => true
  | some v => strOrArrV v

/-- Analysis helper: the value of one record slot after the merge loop
visits its key with incoming value `ov` (one `mergeStep`, viewed at its
own key). -/
def mergeSlot (ex ov : Option JVal) : Option JVal :=
  match ov with
  | none => ex
  | some v =>
    match mergeField ex v with
    | none => ex
    | some w => some w

/-! ## ResultAssembler (`buildItemFromResponse` + `ResultBlock`) -/

/-- The canonical item produced by `buildItemFromResponse`. -/
structure ExtractionItem where
  file_name : JVal
  patients : List JVal
  procedure_tables : JVal
  diagnosis_tables : JVal
  metadata : JVal

/-- Is the value an object in the JS sense (a mapping or a sequence),
i.e. a value whose properties can be assigned without raising in strict
mode? -/
def isObjLike : JVal → Bool
  | JVal.obj _ => true
  | JVal.arr _ => true
  | _ => false

/-- Legacy flat procedure row:
`Array.isArray(r) ? r : [r.Code ?? r.code ?? "", r.Description ?? r.description ?? "", r.Fee ?? r.fee ?? ""]`.
The property reads raise `TypeError` (`Except.error`) when the row is
`null`; any other non-array row is boxed and read normally. -/
def legacyProcRow (r : JVal) : Except Unit JVal :=
  match r with
  | JVal.arr xs => Except.ok (JVal.arr xs)
  | JVal.null => Except.error ()
  | _ =>
    Except.ok (JVal.arr
      [nn (objGetV r "Code") (nn (objGetV r "code") (JVal.str "")),
       nn (objGetV r "Description") (nn (objGetV r "description")
         (JVal.str "")),
       nn (objGetV r "Fee") (nn (objGetV r "fee") (JVal.str ""))])

/-- Legacy flat diagnosis row; like `legacyProcRow`, a `null` row raises
`TypeError` at the first property read. -/
def legacyDiagRow (d : JVal) : Except Unit JVal :=
  match d with
  | JVal.arr xs => Except.ok (JVal.arr xs)
  | JVal.null => Except.error ()
  | _ =>
    Except.ok (JVal.arr
      [nn (objGetV d "Type") (nn (objGetV d "type") (JVal.str "ICD-10")),
       nn (objGetV d "Code") (nn (objGetV d "code") (JVal.str "")),
       nn (objGetV d "Diagnosis") (nn (objGetV d "diagnosis")
         (nn (objGetV d "Description") (nn (objGetV d "description")
           (JVal.str ""))))])

def arrOrNil : Option JVal → List JVal
  | some (JVal.arr xs) => xs
  | _ => []

/-- The fallback arm: `meta = resData.metadata || resData`, then
`if (!meta["File Name"]) meta["File Name"] = file.name`.  Reading
`meta["File Name"]` on a `null` base raises `TypeError`; on a boxed
primitive the read yields `undefined`, so the guard always reaches the
assignment there, and the assignment on a primitive raises `TypeError`
(the component is an ES module, hence strict mode).  On a sequence the
read misses, the assignment succeeds (arrays are objects; the added named
property is invisible to everything this component later does with the
value), and `file_name` becomes the upload's name. -/
def buildFallbackItem (meta : JVal) (fileName : String) :
    Except Unit ExtractionItem :=
  match meta with
  | JVal.null => Except.error ()
  | JVal.obj fs =>
    if truthy (jsOrO (objGet fs "File Name") (JVal.str "")) then
      Except.ok ⟨jsOrO (objGet fs "File Name") (JVal.str fileName), [],
        JVal.obj [], JVal.obj [], JVal.obj fs⟩
    else
      Except.ok ⟨JVal.str fileName, [], JVal.obj [], JVal.obj [],
        JVal.obj (objSet fs "File Name" (JVal.str fileName))⟩
  | JVal.arr xs =>
    Except.ok ⟨JVal.str fileName, [], JVal.obj [], JVal.obj [],
      JVal.arr xs⟩
  | _ => Except.error ()

/-- `buildItemFromResponse(resData, file)`: falsy payloads yield the empty
item; a payload with any canonical field is taken as canonical; otherwise
a payload with a legacy flat array is re-wrapped (raising on `null` rows);
otherwise everything lands in metadata via the fallback arm (which can
raise on non-object metadata). -/
def buildItemFromResponse (resData : JVal) (fileName : String) :
    Except Unit ExtractionItem :=
  if truthy resData = false then
    Except.ok ⟨JVal.str fileName, [], JVal.obj [], JVal.obj [], JVal.obj []⟩
  else if truthy (jsOrO (objGetV resData "patients")
      (jsOrO (objGetV resData "procedure_tables")
        (jsOrO (objGetV resData "diagnosis_tables") (JVal.str "")))) then
    Except.ok ⟨jsOrO (objGetV resData "file_name")
        (jsOrO (objGetV resData "filename") (JVal.str fileName)),
      arrOrNil (objGetV resData "patients"),
      jsOrO (objGetV resData "procedure_tables")
        (jsOrO (objGetV resData "procedureTables") (JVal.obj [])),
      jsOrO (objGetV resData "diagnosis_tables")
        (jsOrO (objGetV resData "diagnosisTables") (JVal.obj [])),
      jsOrO (objGetV resData "metadata") (JVal.obj [])⟩
  else if truthy (jsOrO (objGetV resData "medical_billing_codes")
      (jsOrO (objGetV resData "diagnosis_codes") (JVal.str ""))) then
    match (arrOrNil (objGetV resData "medical_billing_codes")).mapM
        legacyProcRow with
    | Except.error e => Except.error e
    | Except.ok procRows =>
      match (arrOrNil (objGetV resData "diagnosis_codes")).mapM
          legacyDiagRow with
      | Except.error e => Except.error e
      | Except.ok diagRows =>
        Except.ok ⟨jsOrO (objGetV resData "file_name")
            (jsOrO (objGetV resData "filename") (JVal.str fileName)),
          arrOrNil (objGetV resData "patients"),
          JVal.obj [("Procedures", JVal.arr procRows)],
          JVal.obj [("Diagnosis", JVal.arr diagRows)],
          jsOrO (objGetV resData "metadata") (JVal.obj [])⟩
  else
    buildFallbackItem (jsOrO (objGetV resData "metadata") resData) fileName

/-- The processed result at the `ResultBlock` boundary: reconciled
patients plus the two normalized table sets. -/
structure AssembledResult where
  patients : List Rec
  procTables : List (String × JVal)
  diagTables : List (String × JVal)

/-- `dedupeAndMergePatients` as it actually executes on a raw list: the
identity-key probe `p["Patient Name"]` raises `TypeError` the moment the
loop reaches a `null` element (primitives are boxed and read fine), so
the call errors exactly when some element is `null`, and on a null-free
list it is the pure reconciliation above. -/
def dedupeAndMergePatientsE (ps : List JVal) : Except Unit (List Rec) :=
  if ps.any (fun p => match p with | JVal.null => true | _ => false) then
    Except.error ()
  else Except.ok (dedupeAndMergePatients ps)

/-- `ResultBlock` on an item built by `buildItemFromResponse` (its only
caller): the alias probes for `patients_list` / `procedureTables` /
`medical_billing_codes` / `diagnosis_codes` always miss on the built item
(those fields are never produced), so the view normalizes the two table
fields (total for every value shape) and reconciles the patients, which
raises when the built patient list contains a `null` element. -/
def resultView (item : ExtractionItem) : Except Unit AssembledResult :=
  match dedupeAndMergePatientsE item.patients with
  | Except.error e => Except.error e
  | Except.ok pats =>
    Except.ok ⟨pats, normalizeTables item.procedure_tables,
      normalizeTables item.diagnosis_tables⟩

/-- The whole per-document transform: backend payload in, assembled
result (or a raised `TypeError`) out. -/
def assembleResult (resData : JVal) (fileName : String) :
    Except Unit AssembledResult :=
  match buildItemFromResponse resData fileName with
  | Except.error e => Except.error e
  | Except.ok item => resultView item

/-! ## General lemmas about the character-level helpers -/

theorem dropWhile_length_le (p : α → Bool) (l : List α) :
    (l.dropWhile p).length ≤ l.length := by
  induction l with
  | nil => simp
  | cons c rest ih =>
    by_cases h : p c
    · simp only [List.dropWhile_cons, h, if_true, List.length_cons]
      omega
    · simp [List.dropWhile_cons, h]

theorem matchTail_rem_length (c : Char) (ds rest2 : List Char)
    (tok : String) (rem : List Char)
    (h : matchTail c ds rest2 = some (tok, rem)) :
    rem.length ≤ rest2.length := by
  match rest2 with
  | [] =>
    simp only [matchTail, Option.some.injEq, Prod.mk.injEq] at h
    rw [← h.2]
  | d :: rest3 =>
    by_cases hd : d = '.'
    · subst hd
      simp only [matchTail] at h
      rw [if_pos trivial] at h
      by_cases hg : (!(rest3.takeWhile isCodeTailChar).isEmpty
          && nonWordOrEnd (rest3.dropWhile isCodeTailChar)) = true
      · rw [if_pos hg] at h
        simp only [Option.some.injEq, Prod.mk.injEq] at h
        rw [← h.2]
        have := dropWhile_length_le isCodeTailChar rest3
        simp only [List.length_cons]
        omega
      · rw [if_neg hg] at h
        simp only [Option.some.injEq, Prod.mk.injEq] at h
        rw [← h.2]
    · simp only [matchTail, if_neg hd] at h
      by_cases hw : isWordChar d = true
      · simp [hw] at h
      · simp only [hw, Bool.false_eq_true, if_false, Option.some.injEq,
          Prod.mk.injEq] at h
        rw [← h.2]

theorem matchAt_rem_length (c : Char) (rest : List Char)
    (tok : String) (rem : List Char)
    (h : matchAt (c :: rest) = some (tok, rem)) :
    rem.length ≤ rest.length := by
  simp only [matchAt] at h
  by_cases hu : c.isUpper = true
  · rw [if_pos hu] at h
    by_cases hl : ((rest.takeWhile Char.isDigit).length = 2
        || (rest.takeWhile Char.isDigit).length = 3) = true
    · rw [if_pos hl] at h
      have h2 := matchTail_rem_length _ _ _ _ _ h
      have := dropWhile_length_le Char.isDigit rest
      omega
    · rw [if_neg hl] at h; cases h
  · rw [if_neg hu] at h; cases h

theorem scanCodesAux_fuel (f1 f2 : Nat) (prevW : Bool) (l : List Char)
    (h1 : l.length ≤ f1) (h2 : l.length ≤ f2) :
    scanCodesAux f1 prevW l = scanCodesAux f2 prevW l := by
  induction f1 generalizing f2 prevW l with
  | zero =>
    cases l with
    | nil => cases f2 <;> rfl
    | cons c rest => simp at h1
  | succ f ih =>
    cases l with
    | nil => cases f2 <;> rfl
    | cons c rest =>
      cases f2 with
      | zero => simp at h2
      | succ g =>
        simp only [List.length_cons, Nat.succ_le_succ_iff] at h1 h2
        simp only [scanCodesAux]
        cases hm : matchAt (c :: rest) with
        | none => exact ih g (isWordChar c) rest h1 h2
        | some pr =>
          obtain ⟨tok, rem⟩ := pr
          have hr := matchAt_rem_length c rest tok rem hm
          cases prevW
          · simp only [Bool.false_eq_true, if_false]
            rw [ih g true rem (hr.trans h1) (hr.trans h2)]
          · simp only [if_true]
            exact ih g (isWordChar c) rest h1 h2

theorem dropWhile_eq_self_of_all (p : α → Bool) (l : List α)
    (h : ∀ c ∈ l, p c = false) : l.dropWhile p = l := by
  cases l with
  | nil => rfl
  | cons c rest =>
    simp [List.dropWhile_cons, h c (List.mem_cons_self c rest)]

theorem takeWhile_eq_nil_of_all (p : α → Bool) (l : List α)
    (h : ∀ c ∈ l, p c = false) : l.takeWhile p = [] := by
  cases l with
  | nil => rfl
  | cons c rest =>
    simp [List.takeWhile_cons, h c (List.mem_cons_self c rest)]

theorem dropWhile_append_singleton (p : α → Bool) (c : α) (xs : List α)
    (h : p c = false) :
    (xs ++ [c]).dropWhile p = xs.dropWhile p ++ [c] := by
  induction xs with
  | nil => simp [List.dropWhile_cons, h]
  | cons a xs ih =>
    by_cases ha : p a
    · simp [List.dropWhile_cons, ha, ih]
    · simp [List.dropWhile_cons, ha]

theorem dropWhile_shape (p : α → Bool) (l : List α) :
    l.dropWhile p = [] ∨
      ∃ c rest, l.dropWhile p = c :: rest ∧ p c = false := by
  induction l with
  | nil => exact Or.inl rfl
  | cons a xs ih =>
    by_cases ha : p a
    · simpa [List.dropWhile_cons, ha] using ih
    · exact Or.inr ⟨a, xs, by simp [List.dropWhile_cons, ha], by
        simpa using ha⟩

theorem trimL_idem (l : List Char) : trimL (trimL l) = trimL l := by
  unfold trimL
  rcases dropWhile_shape isWsChar l with hA | ⟨c, A', hA, hc⟩
  · simp [hA]
  · rw [hA]
    have h1 : (c :: A').reverse.dropWhile isWsChar
        = A'.reverse.dropWhile isWsChar ++ [c] := by
      rw [List.reverse_cons]
      exact dropWhile_append_singleton isWsChar c A'.reverse hc
    rw [h1]
    have hD : (A'.reverse.dropWhile isWsChar).dropWhile isWsChar
        = A'.reverse.dropWhile isWsChar := by
      rcases dropWhile_shape isWsChar A'.reverse with hB | ⟨d, D, hB, hd⟩
      · rw [hB]; rfl
      · rw [hB, List.dropWhile_cons, if_neg (by simp [hd])]
    have h2 : (A'.reverse.dropWhile isWsChar ++ [c]).reverse
        = c :: (A'.reverse.dropWhile isWsChar).reverse := by
      simp
    rw [h2, List.dropWhile_cons, if_neg (by simp [hc]), List.reverse_cons,
      List.reverse_reverse, dropWhile_append_singleton isWsChar c _ hc, hD]
    simp

theorem trimStr_idem (s : String) : trimStr (trimStr s) = trimStr s := by
  unfold trimStr
  exact congrArg String.mk (trimL_idem s.data)

/-! ## Lemmas about the token scanner -/

theorem takeWhile_eq_self_of_all (p : α → Bool) (l : List α)
    (h : ∀ c ∈ l, p c = true) : l.takeWhile p = l := by
  induction l with
  | nil => rfl
  | cons c rest ih =>
    rw [List.takeWhile_cons, if_pos (h c (List.mem_cons_self c rest))]
    rw [ih (fun x hx => h x (List.mem_cons_of_mem c hx))]

theorem dropWhile_eq_nil_of_all (p : α → Bool) (l : List α)
    (h : ∀ c ∈ l, p c = true) : l.dropWhile p = [] := by
  induction l with
  | nil => rfl
  | cons c rest ih =>
    rw [List.dropWhile_cons, if_pos (h c (List.mem_cons_self c rest))]
    exact ih (fun x hx => h x (List.mem_cons_of_mem c hx))

theorem takeWhile_append_stopper (p : α → Bool) (a b : List α) (stop : α)
    (hs : p stop = false) :
    (a ++ stop :: b).takeWhile p = a.takeWhile p := by
  induction a with
  | nil => simp [List.takeWhile_cons, hs]
  | cons c rest ih =>
    by_cases hc : p c
    · simp [List.takeWhile_cons, hc, ih]
    · simp [List.takeWhile_cons, hc]

theorem dropWhile_append_stopper (p : α → Bool) (a b : List α) (stop : α)
    (hs : p stop = false) :
    (a ++ stop :: b).dropWhile p = a.dropWhile p ++ stop :: b := by
  induction a with
  | nil => simp [List.dropWhile_cons, hs]
  | cons c rest ih =>
    by_cases hc : p c
    · simp [List.dropWhile_cons, hc, ih]
    · simp [List.dropWhile_cons, hc]

theorem string_mk_data (s : String) : String.mk s.data = s := by
  cases s
  rfl

/-- A code token directly followed by nothing or by a comma matches at its
own first character, consuming exactly itself. -/
theorem matchAt_codeToken (s : String) (l₂ : List Char)
    (ht : isCodeToken s = true)
    (hl : l₂ = [] ∨ ∃ w, l₂ = ',' :: w) :
    matchAt (s.data ++ l₂) = some (s, l₂) := by
  unfold isCodeToken at ht
  cases hsd : s.data with
  | nil => rw [hsd] at ht; exact absurd ht (by decide)
  | cons c rest =>
    rw [hsd] at ht
    simp only [isCodeTokenL] at ht
    rw [Bool.and_eq_true, Bool.and_eq_true] at ht
    obtain ⟨⟨hU, hlen⟩, hshape⟩ := ht
    have hsplit := List.takeWhile_append_dropWhile Char.isDigit rest
    have hdsall : ∀ x ∈ rest.takeWhile Char.isDigit, Char.isDigit x = true :=
      fun x hx => List.mem_takeWhile_imp hx
    rw [List.cons_append]
    simp only [matchAt]
    rw [if_pos hU]
    cases hr2 : rest.dropWhile Char.isDigit with
    | nil =>
      have hrest : rest = rest.takeWhile Char.isDigit := by
        conv_lhs => rw [← hsplit]
        rw [hr2, List.append_nil]
      have hTW : (rest ++ l₂).takeWhile Char.isDigit
          = rest.takeWhile Char.isDigit := by
        rcases hl with hnil | ⟨w, hw⟩
        · rw [hnil, List.append_nil]
        · rw [hw, takeWhile_append_stopper _ _ _ _ (by decide)]
      have hDW : (rest ++ l₂).dropWhile Char.isDigit = l₂ := by
        rcases hl with hnil | ⟨w, hw⟩
        · rw [hnil, List.append_nil, hr2]
        · rw [hw, dropWhile_append_stopper _ _ _ _ (by decide), hr2,
            List.nil_append]
      rw [hTW, hDW, if_pos hlen]
      have hmk : String.mk (c :: rest.takeWhile Char.isDigit) = s := by
        rw [← hrest, ← hsd]
      rcases hl with hnil | ⟨w, hw⟩
      · rw [hnil]
        simp only [matchTail]
        rw [hmk]
      · rw [hw]
        simp only [matchTail]
        rw [if_neg (by decide), if_neg (by decide), hmk]
    | cons d t =>
      rw [hr2] at hshape
      simp only [Bool.and_eq_true, decide_eq_true_eq] at hshape
      obtain ⟨⟨hd, htne⟩, hall⟩ := hshape
      subst hd
      have hrest : rest = rest.takeWhile Char.isDigit ++ '.' :: t := by
        conv_lhs => rw [← hsplit]
        rw [hr2]
      have hX : rest ++ l₂
          = rest.takeWhile Char.isDigit ++ '.' :: (t ++ l₂) := by
        conv_lhs => rw [hrest]
        simp
      have hTW : (rest ++ l₂).takeWhile Char.isDigit
          = rest.takeWhile Char.isDigit := by
        rw [hX, takeWhile_append_stopper _ _ _ _ (by decide),
          takeWhile_eq_self_of_all _ _ hdsall]
      have hDW : (rest ++ l₂).dropWhile Char.isDigit = '.' :: (t ++ l₂) := by
        rw [hX, dropWhile_append_stopper _ _ _ _ (by decide),
          dropWhile_eq_nil_of_all _ _ hdsall, List.nil_append]
      rw [hTW, hDW, if_pos hlen]
      simp only [matchTail]
      rw [if_pos trivial]
      have htall : ∀ x ∈ t, isCodeTailChar x = true := by
        simpa using hall
      have hTW2 : (t ++ l₂).takeWhile isCodeTailChar = t := by
        rcases hl with hnil | ⟨w, hw⟩
        · rw [hnil, List.append_nil, takeWhile_eq_self_of_all _ _ htall]
        · rw [hw, takeWhile_append_stopper _ _ _ _ (by decide),
            takeWhile_eq_self_of_all _ _ htall]
      have hDW2 : (t ++ l₂).dropWhile isCodeTailChar = l₂ := by
        rcases hl with hnil | ⟨w, hw⟩
        · rw [hnil, List.append_nil, dropWhile_eq_nil_of_all _ _ htall]
        · rw [hw, dropWhile_append_stopper _ _ _ _ (by decide),
            dropWhile_eq_nil_of_all _ _ htall, List.nil_append]
      have hnw : nonWordOrEnd l₂ = true := by
        rcases hl with hnil | ⟨w, hw⟩
        · rw [hnil]; rfl
        · rw [hw]; rfl
      rw [hTW2, hDW2, if_pos (by rw [hnw]; simp [htne])]
      have hmk : String.mk (c :: (rest.takeWhile Char.isDigit ++ '.' :: t))
          = s := by
        rw [← hrest, ← hsd]
      rw [hmk]

/-- A match attempted inside text of the form `x ++ ',' :: y` never
crosses the comma: the leftover text still ends with `',' :: y` and at
least one character was consumed. -/
theorem matchAt_confined (x y : List Char) (tok : String) (rem : List Char)
    (h : matchAt (x ++ ',' :: y) = some (tok, rem)) :
    ∃ x', rem = x' ++ ',' :: y ∧ x'.length < x.length := by
  cases x with
  | nil =>
    rw [List.nil_append] at h
    simp only [matchAt] at h
    rw [if_neg (by decide)] at h
    cases h
  | cons c xr =>
    rw [List.cons_append] at h
    simp only [matchAt] at h
    by_cases hu : c.isUpper = true
    · rw [if_pos hu, takeWhile_append_stopper _ _ _ _ (by decide),
        dropWhile_append_stopper _ _ _ _ (by decide)] at h
      by_cases hl : ((xr.takeWhile Char.isDigit).length = 2
          || (xr.takeWhile Char.isDigit).length = 3) = true
      · rw [if_pos hl] at h
        have hlen : (xr.dropWhile Char.isDigit).length ≤ xr.length :=
          dropWhile_length_le _ _
        cases hdw : xr.dropWhile Char.isDigit with
        | nil =>
          rw [hdw, List.nil_append] at h
          simp only [matchTail] at h
          rw [if_neg (by decide), if_neg (by decide)] at h
          simp only [Option.some.injEq, Prod.mk.injEq] at h
          exact ⟨[], h.2.symm, by simp⟩
        | cons d xr3 =>
          rw [hdw] at hlen
          rw [hdw, List.cons_append] at h
          simp only [matchTail] at h
          by_cases hd : d = '.'
          · subst hd
            rw [if_pos rfl, takeWhile_append_stopper _ _ _ _ (by decide),
              dropWhile_append_stopper _ _ _ _ (by decide)] at h
            by_cases hg : (!(xr3.takeWhile isCodeTailChar).isEmpty
                && nonWordOrEnd (xr3.dropWhile isCodeTailChar ++ ',' :: y))
                  = true
            · rw [if_pos hg] at h
              simp only [Option.some.injEq, Prod.mk.injEq] at h
              refine ⟨xr3.dropWhile isCodeTailChar, h.2.symm, ?_⟩
              have := dropWhile_length_le isCodeTailChar xr3
              simp only [List.length_cons] at hlen ⊢
              omega
            · rw [if_neg hg] at h
              simp only [Option.some.injEq, Prod.mk.injEq] at h
              refine ⟨'.' :: xr3, by rw [← h.2, List.cons_append], ?_⟩
              simp only [List.length_cons] at hlen ⊢
              omega
          · rw [if_neg hd] at h
            by_cases hw : isWordChar d = true
            · rw [if_pos hw] at h
              cases h
            · rw [if_neg hw] at h
              simp only [Option.some.injEq, Prod.mk.injEq] at h
              refine ⟨d :: xr3, by rw [← h.2, List.cons_append], ?_⟩
              simp only [List.length_cons] at hlen ⊢
              omega
      · rw [if_neg hl] at h
        cases h
    · rw [if_neg hu] at h
      cases h

theorem matchAt_comma (y : List Char) : matchAt (',' :: y) = none := by
  simp only [matchAt]
  rw [if_neg (by decide)]

theorem isWordChar_comma : isWordChar ',' = false := by decide

/-- Scanning from a comma boundary is scanning the rest. -/
theorem scanAux_skip_base (y : List Char) (prevW : Bool) (f : Nat)
    (hf : (',' :: y).length ≤ f) (s : String)
    (hs : s ∈ scanCodesAux y.length false y) :
    s ∈ scanCodesAux f prevW (',' :: y) := by
  cases f with
  | zero => simp at hf
  | succ f' =>
    simp only [scanCodesAux, matchAt_comma, isWordChar_comma]
    rw [scanCodesAux_fuel f' y.length false y
      (by simp only [List.length_cons, Nat.succ_le_succ_iff] at hf; exact hf)
      (le_refl _)]
    exact hs

/-- A token found after a comma survives the scan of any text before the
comma: matches never cross the comma, so the scanner eventually restarts
at the comma with a fresh word boundary. -/
theorem scanAux_skip (y : List Char) (s : String) (n : Nat) :
    ∀ (x : List Char), x.length ≤ n → ∀ (prevW : Bool) (f : Nat),
      (x ++ ',' :: y).length ≤ f →
      s ∈ scanCodesAux y.length false y →
      s ∈ scanCodesAux f prevW (x ++ ',' :: y) := by
  induction n with
  | zero =>
    intro x hx prevW f hf hs
    have hx0 : x = [] := List.length_eq_zero.mp (Nat.le_zero.mp hx)
    subst hx0
    rw [List.nil_append] at hf ⊢
    exact scanAux_skip_base y prevW f hf s hs
  | succ m ih =>
    intro x hx prevW f hf hs
    cases x with
    | nil =>
      rw [List.nil_append] at hf ⊢
      exact scanAux_skip_base y prevW f hf s hs
    | cons c xr =>
      cases f with
      | zero => simp at hf
      | succ f' =>
        rw [List.cons_append] at hf ⊢
        simp only [List.length_cons, Nat.succ_le_succ_iff] at hf hx
        simp only [scanCodesAux]
        cases hm : matchAt (c :: (xr ++ ',' :: y)) with
        | none => exact ih xr hx (isWordChar c) f' hf hs
        | some pr =>
          obtain ⟨tok, rem⟩ := pr
          have hrl := matchAt_rem_length _ _ _ _ hm
          have hconf := matchAt_confined (c :: xr) y tok rem
            (by rw [List.cons_append]; exact hm)
          obtain ⟨x', hrem, hxl⟩ := hconf
          cases prevW
          · simp only [Bool.false_eq_true, if_false]
            apply List.mem_cons_of_mem
            rw [hrem]
            refine ih x' ?_ true f' ?_ hs
            · simp only [List.length_cons] at hxl
              omega
            · rw [← hrem]
              exact le_trans hrl hf
          · simp only [if_true]
            exact ih xr hx (isWordChar c) f' hf hs

/-- A code token at the very start of the scan (with an admissible right
context) is reported. -/
theorem scan_token_head (s : String) (l₂ : List Char)
    (ht : isCodeToken s = true) (hl : l₂ = [] ∨ ∃ w, l₂ = ',' :: w)
    (f : Nat) (hf : (s.data ++ l₂).length ≤ f) :
    s ∈ scanCodesAux f false (s.data ++ l₂) := by
  have hm := matchAt_codeToken s l₂ ht hl
  cases hsd : s.data with
  | nil =>
    unfold isCodeToken at ht
    rw [hsd] at ht
    exact absurd ht (by decide)
  | cons c rest =>
    rw [hsd] at hm hf
    rw [List.cons_append] at hm hf ⊢
    cases f with
    | zero => simp at hf
    | succ f' =>
      simp only [scanCodesAux, hm]
      exact List.mem_cons_self s _

theorem jsArrToString_cons_ne_nil (v : JVal) (l : List JVal) (h : l ≠ []) :
    jsArrToString (v :: l) = jsElemToString v ++ "," ++ jsArrToString l := by
  cases l with
  | nil => exact absurd rfl h
  | cons w rest => rfl

/-- The stringification of a sequence containing the text element `s`
splits as `A ++ s ++ B` where `A` is empty or ends with a comma and `B`
is empty or starts with a comma. -/
theorem jsArr_split (s : String) (bs : List JVal) :
    ∀ as : List JVal,
    ∃ A B, (jsArrToString (as ++ JVal.str s :: bs)).data
        = A ++ s.data ++ B ∧
      (A = [] ∨ ∃ u, A = u ++ [',']) ∧ (B = [] ∨ ∃ w, B = ',' :: w) := by
  intro as
  induction as with
  | nil =>
    cases bs with
    | nil =>
      refine ⟨[], [], by simp [jsArrToString, jsElemToString], Or.inl rfl,
        Or.inl rfl⟩
    | cons b bs' =>
      refine ⟨[], ',' :: (jsArrToString (b :: bs')).data, ?_, Or.inl rfl,
        Or.inr ⟨_, rfl⟩⟩
      have h1 : (jsArrToString (JVal.str s :: b :: bs')).data
          = s.data ++ [','] ++ (jsArrToString (b :: bs')).data := rfl
      rw [List.nil_append, h1]
      simp
  | cons a as' ih =>
    obtain ⟨A', B', hAB, hA', hB'⟩ := ih
    have hne : as' ++ JVal.str s :: bs ≠ [] := by simp
    refine ⟨(jsElemToString a).data ++ ',' :: A', B', ?_, ?_, hB'⟩
    · rw [List.cons_append]
      have h1 : (jsArrToString (a :: (as' ++ JVal.str s :: bs))).data
          = (jsElemToString a).data ++ [',']
            ++ (jsArrToString (as' ++ JVal.str s :: bs)).data := by
        rw [jsArrToString_cons_ne_nil a _ hne]
        rfl
      rw [h1, hAB]
      simp
    · right
      rcases hA' with h0 | ⟨u, hu⟩
      · exact ⟨(jsElemToString a).data, by rw [h0]⟩
      · exact ⟨(jsElemToString a).data ++ ',' :: u, by rw [hu]; simp⟩

theorem mem_foldl_addUnique_of_mem_acc (l : List String) :
    ∀ (acc : List String) (s : String), s ∈ acc →
      s ∈ l.foldl addUnique acc := by
  induction l with
  | nil => intro acc s h; exact h
  | cons x l' ih =>
    intro acc s h
    simp only [List.foldl_cons]
    apply ih
    unfold addUnique
    by_cases hx : x ∈ acc
    · rw [if_pos hx]; exact h
    · rw [if_neg hx]; exact List.mem_append_left _ h

theorem mem_foldl_addUnique_of_mem (l : List String) :
    ∀ (acc : List String) (s : String), s ∈ l →
      s ∈ l.foldl addUnique acc := by
  induction l with
  | nil => intro acc s h; cases h
  | cons x l' ih =>
    intro acc s h
    simp only [List.foldl_cons]
    rcases List.mem_cons.mp h with rfl | h'
    · apply mem_foldl_addUnique_of_mem_acc
      unfold addUnique
      by_cases hx : s ∈ acc
      · rw [if_pos hx]; exact hx
      · rw [if_neg hx]
        exact List.mem_append_right _ (List.mem_singleton.mpr rfl)
    · exact ih _ _ h'

theorem highlight_fold_acc (p : Rec) (acc : List String) (s : String)
    (h : s ∈ acc) : s ∈ p.foldl highlightStep acc := by
  induction p generalizing acc with
  | nil => exact h
  | cons kv p' ih =>
    exact ih _ (mem_foldl_addUnique_of_mem_acc _ _ _ h)

theorem ws_char_eq (c : Char) (h : isWsChar c = true) :
    c = ' ' ∨ c = '\t' ∨ c = '\n' ∨ c = '\r' ∨ c = '\x0b' ∨ c = '\x0c' := by
  simp only [isWsChar, Bool.or_eq_true, decide_eq_true_eq] at h
  tauto

theorem not_ws_of_upper (c : Char) (h : c.isUpper = true) :
    isWsChar c = false := by
  by_cases hw : isWsChar c = true
  · rcases ws_char_eq c hw with e|e|e|e|e|e <;> subst e <;>
      exact absurd h (by decide)
  · simpa using hw

theorem not_ws_of_digit (c : Char) (h : c.isDigit = true) :
    isWsChar c = false := by
  by_cases hw : isWsChar c = true
  · rcases ws_char_eq c hw with e|e|e|e|e|e <;> subst e <;>
      exact absurd h (by decide)
  · simpa using hw

theorem not_ws_of_tail (c : Char) (h : isCodeTailChar c = true) :
    isWsChar c = false := by
  have h' : c.isDigit = true ∨ c.isUpper = true := by
    simpa [isCodeTailChar] using h
  rcases h' with hd | hu
  · exact not_ws_of_digit c hd
  · exact not_ws_of_upper c hu

theorem trimL_of_no_ws (l : List Char) (h : ∀ c ∈ l, isWsChar c = false) :
    trimL l = l := by
  unfold trimL
  rw [dropWhile_eq_self_of_all _ _ h,
    dropWhile_eq_self_of_all _ _ (fun c hc => h c (List.mem_reverse.mp hc)),
    List.reverse_reverse]

theorem codeToken_no_ws (s : String) (ht : isCodeToken s = true) :
    ∀ c ∈ s.data, isWsChar c = false := by
  unfold isCodeToken at ht
  cases hsd : s.data with
  | nil =>
    intro c hc
    cases hc
  | cons c0 rest =>
    rw [hsd] at ht
    simp only [isCodeTokenL] at ht
    rw [Bool.and_eq_true, Bool.and_eq_true] at ht
    obtain ⟨⟨hU, _⟩, hshape⟩ := ht
    intro c hc
    rcases List.mem_cons.mp hc with rfl | hc'
    · exact not_ws_of_upper c hU
    · have hsplit := List.takeWhile_append_dropWhile Char.isDigit rest
      rw [← hsplit] at hc'
      rcases List.mem_append.mp hc' with hd | hr
      · exact not_ws_of_digit c (List.mem_takeWhile_imp hd)
      · cases hr2 : rest.dropWhile Char.isDigit with
        | nil =>
          rw [hr2] at hr
          cases hr
        | cons d t =>
          rw [hr2] at hshape hr
          simp only [Bool.and_eq_true, decide_eq_true_eq] at hshape
          obtain ⟨⟨hd', _⟩, hall⟩ := hshape
          rcases List.mem_cons.mp hr with rfl | hctail
          · subst hd'
            decide
          · have hta : ∀ x ∈ t, isCodeTailChar x = true := by simpa using hall
            exact not_ws_of_tail c (hta c hctail)

theorem codeToken_trim (s : String) (ht : isCodeToken s = true) :
    trimStr s = s := by
  unfold trimStr
  rw [trimL_of_no_ws s.data (codeToken_no_ws s ht)]

/-! ## Lemmas about the fee-repair pipeline -/

theorem isEmpty_false_of_ne_nil (l : List α) (h : l ≠ []) :
    l.isEmpty = false := by
  cases l with
  | nil => exact absurd rfl h
  | cons a r => rfl

theorem collapseWsAux_of_no_ws (b : Bool) (l : List Char)
    (h : ∀ c ∈ l, isWsChar c = false) : collapseWsAux b l = l := by
  induction l generalizing b with
  | nil => rfl
  | cons c rest ih =>
    have hc := h c (List.mem_cons_self c rest)
    simp only [collapseWsAux]
    rw [if_neg (by simp [hc])]
    rw [ih false (fun x hx => h x (List.mem_cons_of_mem c hx))]

theorem joinSplitFee_of_no_ws (l : List Char)
    (h : ∀ c ∈ l, isWsChar c = false) : joinSplitFee l = l := by
  unfold joinSplitFee
  cases hrev : l.reverse with
  | nil => rfl
  | cons d5 r1 =>
    cases r1 with
    | nil => rfl
    | cons d4 r2 =>
      cases r2 with
      | nil => rfl
      | cons c3 r3 =>
        cases r3 with
        | nil => rfl
        | cons d3 r4 =>
          cases r4 with
          | nil => rfl
          | cons d2 rest =>
            have hws : rest.takeWhile isWsChar = [] := by
              apply takeWhile_eq_nil_of_all
              intro c hc
              apply h
              rw [← List.mem_reverse, hrev]
              exact List.mem_cons_of_mem _ (List.mem_cons_of_mem _
                (List.mem_cons_of_mem _ (List.mem_cons_of_mem _
                  (List.mem_cons_of_mem _ hc))))
            simp [hws]

theorem zeroCollapse_of_not00 (l : List Char)
    (h : startsDoubleZero l = false) : zeroCollapse l = l := by
  unfold zeroCollapse
  cases l with
  | nil => rfl
  | cons c l' =>
    by_cases hc : c = '0'
    · subst hc
      cases l' with
      | nil => rfl
      | cons d l'' =>
        by_cases hd : d = '0'
        · subst hd
          exact absurd h (by simp [startsDoubleZero])
        · have hzs : (('0' : Char) :: d :: l'').takeWhile (fun c => c = '0')
              = ['0'] := by
            simp [List.takeWhile_cons, hd]
          have hrest : (('0' : Char) :: d :: l'').dropWhile (fun c => c = '0')
              = d :: l'' := by
            simp [List.dropWhile_cons, hd]
          rw [hzs, hrest]
          by_cases hg : (!([('0' : Char)].isEmpty) && dotDD (d :: l'')) = true
          · rw [if_pos hg]
          · rw [if_neg hg]
    · have hzs : ((c :: l').takeWhile (fun c => c = '0')) = [] := by
        simp [List.takeWhile_cons, hc]
      rw [hzs]
      rw [if_neg (by simp)]

theorem starts00_prefix (w rest z : List Char) (hw : w ≠ [])
    (h : startsDoubleZero (w ++ rest) = false) :
    startsDoubleZero (w ++ '.' :: z) = false := by
  cases w with
  | nil => exact absurd rfl hw
  | cons w1 w' =>
    cases w' with
    | nil => simp [startsDoubleZero]
    | cons w2 w'' =>
      simp only [List.cons_append, startsDoubleZero] at h ⊢
      exact h

theorem noise_char_eq (c : Char) (h : isNoiseChar c = true) :
    c = '|' ∨ c = '[' ∨ c = '(' := by
  simp only [isNoiseChar, Bool.or_eq_true, decide_eq_true_eq] at h
  tauto

theorem not_noise_of_digit (c : Char) (h : c.isDigit = true) :
    isNoiseChar c = false := by
  by_cases hn : isNoiseChar c = true
  · rcases noise_char_eq c hn with e|e|e <;> subst e <;>
      exact absurd h (by decide)
  · simpa using hn

theorem endsInDot2_append (pre : List Char) (x y : Char)
    (hx : x.isDigit = true) (hy : y.isDigit = true) :
    endsInDot2 (pre ++ '.' :: [x, y]) = true := by
  unfold endsInDot2
  rw [show (pre ++ '.' :: [x, y]).reverse = y :: x :: '.' :: pre.reverse from
    by simp]
  simp [hx, hy]

theorem padDecimals_of_endsInDot2 (t : List Char)
    (h : endsInDot2 t = true) : padDecimals t = t := by
  unfold padDecimals
  rw [if_neg (by simp [h])]

theorem insertDec_of_dot (t : List Char) (h : ('.' : Char) ∈ t) :
    insertDec t = t := by
  unfold insertDec
  refine if_neg (fun hg => ?_)
  rw [Bool.and_eq_true] at hg
  have h1 : ∀ x ∈ t, Char.isDigit x = true := by simpa using hg.1
  exact absurd (h1 '.' h) (by decide)

theorem eq_pair_of_length_two (l : List Char) (h : l.length = 2) :
    ∃ a b, l = [a, b] := by
  cases l with
  | nil => simp at h
  | cons a l1 =>
    cases l1 with
    | nil => simp at h
    | cons b l2 =>
      cases l2 with
      | nil => exact ⟨a, b, rfl⟩
      | cons c l3 => simp at h

/-- Once a text is trimmed, whitespace-free, noise-free, does not start
with two zeros, and is fixed by the two numeric rewriting rules, the whole
repair pipeline leaves it unchanged. -/
theorem cleanFeeList_fixpoint (t : List Char) (hne : t ≠ [])
    (hws : ∀ c ∈ t, isWsChar c = false)
    (hnoise : ∀ c ∈ t, isNoiseChar c = false)
    (h00 : startsDoubleZero t = false)
    (hins : insertDec t = t) (hpad : padDecimals t = t) :
    cleanFeeList t = t := by
  unfold cleanFeeList
  rw [trimL_of_no_ws t hws]
  rw [if_neg (by simp [isEmpty_false_of_ne_nil t hne])]
  have hcol : collapseWs t = t := collapseWsAux_of_no_ws false t hws
  rw [hcol, dropWhile_eq_self_of_all isNoiseChar t hnoise,
    joinSplitFee_of_no_ws t hws, zeroCollapse_of_not00 t h00, hins, hpad]

/-! ## Lemmas about object field access -/

theorem objGet_objSet_self (r : Rec) (k : String) (v : JVal) :
    objGet (objSet r k v) k = some v := by
  induction r with
  | nil => simp [objSet, objGet]
  | cons kv rest ih =>
    obtain ⟨k', v'⟩ := kv
    by_cases hk : k' = k
    · simp [objSet, objGet, hk]
    · simp [objSet, objGet, hk, ih]

theorem objGet_objSet_other (r : Rec) (k k' : String) (v : JVal)
    (h : k' ≠ k) : objGet (objSet r k v) k' = objGet r k' := by
  have hne : ¬ k = k' := fun hh => h hh.symm
  induction r with
  | nil => simp [objSet, objGet, hne]
  | cons kv rest ih =>
    obtain ⟨k0, v0⟩ := kv
    by_cases hk : k0 = k
    · subst hk
      simp [objSet, objGet, hne]
    · simp [objSet, objGet, hk, ih]

theorem wrapIfScalar_get_self (r : Rec) (k : String) (v : JVal)
    (hv : objGet r k = some v) (ht : truthy v = true)
    (ha : isArrV v = false) :
    objGet (wrapIfScalar r k) k = some (JVal.arr [v]) := by
  simp only [wrapIfScalar, hv]
  rw [if_pos (by simp [ht, ha])]
  exact objGet_objSet_self r k (JVal.arr [v])

theorem wrapIfScalar_get_other (r : Rec) (k k' : String) (h : k' ≠ k) :
    objGet (wrapIfScalar r k) k' = objGet r k' := by
  cases hv : objGet r k with
  | none => simp only [wrapIfScalar, hv]
  | some v =>
    simp only [wrapIfScalar, hv]
    by_cases hg : (truthy v && !isArrV v) = true
    · rw [if_pos hg]
      exact objGet_objSet_other r k k' (JVal.arr [v]) h
    · rw [if_neg hg]

/-! ## Lemmas about the reconciler merge -/

theorem bool_eq_false_of_ne_true {b : Bool} (h : ¬ b = true) : b = false := by
  cases b
  · rfl
  · exact absurd rfl h

theorem mem_dedupKeysAux (l : List String) :
    ∀ (seen : List String) (k : String),
      k ∈ dedupKeysAux seen l ↔ k ∈ l ∧ k ∉ seen := by
  induction l with
  | nil =>
    intro seen k
    simp [dedupKeysAux]
  | cons k0 rest ih =>
    intro seen k
    unfold dedupKeysAux
    by_cases h0 : k0 ∈ seen
    · rw [if_pos h0, ih seen k]
      constructor
      · rintro ⟨hm, hs⟩
        exact ⟨List.mem_cons_of_mem _ hm, hs⟩
      · rintro ⟨hm, hs⟩
        rcases List.mem_cons.mp hm with he | hm'
        · exact absurd (he ▸ h0) hs
        · exact ⟨hm', hs⟩
    · rw [if_neg h0]
      constructor
      · intro hm
        rcases List.mem_cons.mp hm with he | hm'
        · rw [he]
          exact ⟨List.mem_cons_self _ _, h0⟩
        · rcases (ih (k0 :: seen) k).mp hm' with ⟨hr, hs⟩
          exact ⟨List.mem_cons_of_mem _ hr,
            fun hx => hs (List.mem_cons_of_mem _ hx)⟩
      · rintro ⟨hm, hs⟩
        rcases List.mem_cons.mp hm with he | hm'
        · rw [he]
          exact List.mem_cons_self _ _
        · by_cases hk0 : k = k0
          · rw [hk0]
            exact List.mem_cons_self _ _
          · refine List.mem_cons_of_mem _ ((ih (k0 :: seen) k).mpr ⟨hm', ?_⟩)
            intro hx
            rcases List.mem_cons.mp hx with he | hx'
            · exact hk0 he
            · exact hs hx'

theorem nodup_dedupKeysAux (l : List String) :
    ∀ seen : List String, (dedupKeysAux seen l).Nodup := by
  induction l with
  | nil =>
    intro seen
    simp [dedupKeysAux]
  | cons k0 rest ih =>
    intro seen
    unfold dedupKeysAux
    by_cases h0 : k0 ∈ seen
    · rw [if_pos h0]
      exact ih seen
    · rw [if_neg h0]
      refine List.nodup_cons.mpr ⟨?_, ih _⟩
      intro hc
      exact ((mem_dedupKeysAux rest _ _).mp hc).2 (List.mem_cons_self _ _)

theorem objGet_eq_none_of_not_mem (q : Rec) (k : String)
    (h : k ∉ q.map Prod.fst) : objGet q k = none := by
  induction q with
  | nil => rfl
  | cons kv rest ih =>
    obtain ⟨k0, v0⟩ := kv
    simp only [List.map_cons, List.mem_cons] at h
    push_neg at h
    have hne : ¬ k0 = k := fun he => h.1 he.symm
    simp only [objGet, if_neg hne]
    exact ih h.2

theorem objGet_mem (q : Rec) (k : String) (v : JVal)
    (h : objGet q k = some v) : (k, v) ∈ q := by
  induction q with
  | nil => exact Option.noConfusion h
  | cons kv rest ih =>
    obtain ⟨k0, v0⟩ := kv
    by_cases hk : k0 = k
    · subst hk
      simp only [objGet, if_pos rfl] at h
      rw [Option.some.inj h]
      exact List.mem_cons_self _ _
    · simp only [objGet, if_neg hk] at h
      exact List.mem_cons_of_mem _ (ih h)

theorem objGet_isSome_of_mem (q : Rec) (k : String)
    (h : k ∈ q.map Prod.fst) : ∃ v, objGet q k = some v := by
  induction q with
  | nil => simp at h
  | cons kv rest ih =>
    obtain ⟨k0, v0⟩ := kv
    by_cases hk : k0 = k
    · subst hk
      exact ⟨v0, by simp [objGet]⟩
    · have hk' : k ∈ rest.map Prod.fst := by
        simp only [List.map_cons, List.mem_cons] at h
        rcases h with he | hm
        · exact absurd he.symm hk
        · exact hm
      rcases ih hk' with ⟨v, hv⟩
      exact ⟨v, by simp [objGet, hk, hv]⟩

theorem strOrArrOpt_objGet (q : Rec) (k : String)
    (hq : ∀ kv ∈ q, strOrArrV kv.2 = true) :
    strOrArrOpt (objGet q k) = true := by
  cases hv : objGet q k with
  | none => rfl
  | some v => exact hq (k, v) (objGet_mem q k v hv)

theorem mergeStep_get_other (p : JVal) (r : Rec) (k k' : String)
    (h : k' ≠ k) : objGet (mergeStep p r k) k' = objGet r k' := by
  unfold mergeStep
  cases objGetV p k with
  | none => rfl
  | some v =>
    show objGet (match mergeField (objGet r k) v with
      | none => r
      | some w => objSet r k w) k' = objGet r k'
    cases mergeField (objGet r k) v with
    | none => rfl
    | some w => exact objGet_objSet_other r k k' w h

theorem foldl_mergeStep_not_mem (p : JVal) (ks : List String) :
    ∀ (r : Rec) (k : String), k ∉ ks →
      objGet (ks.foldl (mergeStep p) r) k = objGet r k := by
  induction ks with
  | nil =>
    intro r k _
    rfl
  | cons k0 rest ih =>
    intro r k hk
    have hk0 : k ≠ k0 := fun he => hk (by rw [he]; exact List.mem_cons_self _ _)
    have hkr : k ∉ rest := fun hm => hk (List.mem_cons_of_mem _ hm)
    simp only [List.foldl_cons]
    rw [ih _ _ hkr, mergeStep_get_other p r k0 k hk0]

theorem foldl_mergeStep_mem (p : JVal) (ks : List String) :
    ∀ (r : Rec) (k : String), ks.Nodup → k ∈ ks →
      objGet (ks.foldl (mergeStep p) r) k
        = mergeSlot (objGet r k) (objGetV p k) := by
  induction ks with
  | nil =>
    intro r k _ hk
    exact absurd hk (List.not_mem_nil k)
  | cons k0 rest ih =>
    intro r k hnd hk
    have hnd' := List.nodup_cons.mp hnd
    simp only [List.foldl_cons]
    by_cases he : k = k0
    · subst he
      rw [foldl_mergeStep_not_mem p rest _ k hnd'.1]
      unfold mergeStep mergeSlot
      cases objGetV p k with
      | none => rfl
      | some v =>
        show objGet (match mergeField (objGet r k) v with
          | none => r
          | some w => objSet r k w) k
          = (match mergeField (objGet r k) v with
            | none => objGet r k
            | some w => some w)
        cases mergeField (objGet r k) v with
        | none => rfl
        | some w => exact objGet_objSet_self r k w
    · have hm : k ∈ rest := by
        rcases List.mem_cons.mp hk with h1 | h1
        · exact absurd h1 he
        · exact h1
      rw [ih _ _ hnd'.2 hm, mergeStep_get_other p r k0 k he]

theorem ite_some_ne_none {α : Type} (c : Prop) [Decidable c] (a b : α) :
    (if c then some a else some b) ≠ none := by
  by_cases hc : c
  · rw [if_pos hc]
    exact fun h => Option.noConfusion h
  · rw [if_neg hc]
    exact fun h => Option.noConfusion h

theorem mergeSlot_eq (ex : Option JVal) (v : JVal) :
    mergeSlot ex (some v) = (match mergeField ex v with
      | none => ex
      | some w => some w) := rfl

theorem mergeField_none_cases (ex : Option JVal) (v : JVal)
    (h : mergeField ex v = none) :
    ex = none ∧ truthy v = false := by
  unfold mergeField at h
  by_cases hc : (mergeAbsent ex && truthy v) = true
  · rw [if_pos hc] at h
    exact Option.noConfusion h
  · rw [if_neg hc] at h
    cases ex with
    | none =>
      refine ⟨rfl, ?_⟩
      cases htv : truthy v
      · rfl
      · exact absurd (by simp [mergeAbsent, htv]) hc
    | some e =>
      exfalso
      cases e <;> cases v <;>
        first
          | exact Option.noConfusion h
          | exact ite_some_ne_none _ _ _ h

theorem mem_atoms_if_arr (c : Bool) (xs : List JVal) (w a : JVal)
    (ha : a ∈ xs) :
    a ∈ atomsOf (if c = true then some (JVal.arr (xs ++ [w]))
      else some (JVal.arr xs)) := by
  cases c <;> simp [atomsOf, ha]

theorem mergeField_preserves_existing (ex : Option JVal) (v : JVal)
    (hex : strOrArrOpt ex = true) :
    ∀ a ∈ atomsOf ex, placeholderAtom a = false →
      a ∈ atomsOf (mergeField ex v) := by
  intro a ha hpl
  cases ex with
  | none => simp [atomsOf] at ha
  | some e =>
    cases e with
    | str s =>
      have ha' : a = JVal.str s := by simpa [atomsOf] using ha
      subst ha'
      simp only [placeholderAtom] at hpl
      have hs1 : s ≠ "" := by
        intro he
        rw [he] at hpl
        simp at hpl
      have hs2 : s ≠ "NIL" := by
        intro he
        rw [he] at hpl
        simp at hpl
      have habs : mergeAbsent (some (JVal.str s)) = false := by
        simp [mergeAbsent, hs1, hs2]
      have hts : truthy (JVal.str s) = true := by simp [truthy, hs1]
      unfold mergeField
      rw [habs, Bool.false_and, if_neg (by simp)]
      cases v with
      | null => simp [atomsOf]
      | bool b => simp [atomsOf]
      | num n => simp [atomsOf]
      | str t => simp [atomsOf]
      | obj fs => simp [atomsOf]
      | arr ys =>
        show JVal.str s ∈ atomsOf (some (JVal.arr
          ((if truthy (JVal.str s) = true then [JVal.str s] else []) ++ ys)))
        rw [hts, if_pos rfl]
        simp [atomsOf]
    | arr xs =>
      have ha' : a ∈ xs := by simpa [atomsOf] using ha
      have habs : mergeAbsent (some (JVal.arr xs)) = false := rfl
      unfold mergeField
      rw [habs, Bool.false_and, if_neg (by simp)]
      cases v with
      | arr ys => simp [atomsOf, ha']
      | null => exact mem_atoms_if_arr (truthy JVal.null) xs _ a ha'
      | bool b => exact mem_atoms_if_arr (truthy (JVal.bool b)) xs _ a ha'
      | num n => exact mem_atoms_if_arr (truthy (JVal.num n)) xs _ a ha'
      | str t => exact mem_atoms_if_arr (truthy (JVal.str t)) xs _ a ha'
      | obj fs => exact mem_atoms_if_arr (truthy (JVal.obj fs)) xs _ a ha'
    | null => simp [strOrArrOpt, strOrArrV] at hex
    | bool b => simp [strOrArrOpt, strOrArrV] at hex
    | num n => simp [strOrArrOpt, strOrArrV] at hex
    | obj fs => simp [strOrArrOpt, strOrArrV] at hex

theorem mergeField_preserves_incoming (ex : Option JVal) (v : JVal)
    (hex : strOrArrOpt ex = true) (hv : strOrArrV v = true) :
    ∀ a ∈ atomsOf (some v), placeholderAtom a = false →
      a ∈ atomsOf (mergeField ex v) ∨
        ∃ s, mergeField ex v = some (JVal.str s) ∧ s ≠ "" ∧ s ≠ "NIL" := by
  intro a ha hpl
  cases v with
  | str t =>
    have ha' : a = JVal.str t := by simpa [atomsOf] using ha
    subst ha'
    simp only [placeholderAtom] at hpl
    have ht1 : t ≠ "" := by
      intro he
      rw [he] at hpl
      simp at hpl
    have ht2 : t ≠ "NIL" := by
      intro he
      rw [he] at hpl
      simp at hpl
    have htr : truthy (JVal.str t) = true := by simp [truthy, ht1]
    cases ex with
    | none =>
      left
      unfold mergeField
      rw [show mergeAbsent none = true from rfl, Bool.true_and, htr,
        if_pos rfl]
      simp [atomsOf]
    | some e =>
      cases e with
      | str s =>
        by_cases habs : mergeAbsent (some (JVal.str s)) = true
        · left
          unfold mergeField
          rw [habs, Bool.true_and, htr, if_pos rfl]
          simp [atomsOf]
        · right
          have habs' := bool_eq_false_of_ne_true habs
          have hs12 : ¬ s = "NIL" ∧ ¬ s = "" := by
            simpa [mergeAbsent] using habs'
          refine ⟨s, ?_, hs12.2, hs12.1⟩
          unfold mergeField
          rw [habs', Bool.false_and, if_neg (by simp)]
      | arr xs =>
        left
        unfold mergeField
        rw [show mergeAbsent (some (JVal.arr xs)) = false from rfl,
          Bool.false_and, if_neg (by simp)]
        show JVal.str t ∈ atomsOf (if truthy (JVal.str t) = true
          then some (JVal.arr (xs ++ [JVal.str t]))
          else some (JVal.arr xs))
        rw [htr, if_pos rfl]
        simp [atomsOf]
      | null => simp [strOrArrOpt, strOrArrV] at hex
      | bool b => simp [strOrArrOpt, strOrArrV] at hex
      | num n => simp [strOrArrOpt, strOrArrV] at hex
      | obj fs => simp [strOrArrOpt, strOrArrV] at hex
  | arr ys =>
    have ha' : a ∈ ys := by simpa [atomsOf] using ha
    left
    cases ex with
    | none =>
      unfold mergeField
      rw [show mergeAbsent none = true from rfl, Bool.true_and,
        show truthy (JVal.arr ys) = true from rfl, if_pos rfl]
      simp [atomsOf, ha']
    | some e =>
      cases e with
      | str s =>
        by_cases habs : mergeAbsent (some (JVal.str s)) = true
        · unfold mergeField
          rw [habs, Bool.true_and,
            show truthy (JVal.arr ys) = true from rfl, if_pos rfl]
          simp [atomsOf, ha']
        · have habs' := bool_eq_false_of_ne_true habs
          unfold mergeField
          rw [habs', Bool.false_and, if_neg (by simp)]
          show a ∈ atomsOf (some (JVal.arr
            ((if truthy (JVal.str s) = true then [JVal.str s] else [])
              ++ ys)))
          simp [atomsOf, ha']
      | arr xs =>
        unfold mergeField
        rw [show mergeAbsent (some (JVal.arr xs)) = false from rfl,
          Bool.false_and, if_neg (by simp)]
        show a ∈ atomsOf (some (JVal.arr (xs ++ ys)))
        simp [atomsOf, ha']
      | null => simp [strOrArrOpt, strOrArrV] at hex
      | bool b => simp [strOrArrOpt, strOrArrV] at hex
      | num n => simp [strOrArrOpt, strOrArrV] at hex
      | obj fs => simp [strOrArrOpt, strOrArrV] at hex
  | null => simp [strOrArrV] at hv
  | bool b => simp [strOrArrV] at hv
  | num n => simp [strOrArrV] at hv
  | obj fs => simp [strOrArrV] at hv

theorem wrapIfScalar_atoms (r : Rec) (k0 k : String) :
    atomsOf (objGet (wrapIfScalar r k0) k) = atomsOf (objGet r k) := by
  by_cases hk : k = k0
  · subst hk
    cases hv : objGet r k with
    | none =>
      simp only [wrapIfScalar, hv]
    | some v =>
      by_cases hg : (truthy v && !isArrV v) = true
      · simp only [wrapIfScalar, hv, if_pos hg]
        rw [objGet_objSet_self]
        have hg' : truthy v = true ∧ isArrV v = false := by simpa using hg
        have hna := hg'.2
        cases v with
        | arr xs => simp [isArrV] at hna
        | null => simp [atomsOf]
        | bool b => simp [atomsOf]
        | num n => simp [atomsOf]
        | str s => simp [atomsOf]
        | obj fs => simp [atomsOf]
      · simp only [wrapIfScalar, hv, if_neg hg]
  · rw [wrapIfScalar_get_other r k0 k hk]

theorem wrapIfScalar_shape (r : Rec) (k0 k : String)
    (h : strOrArrOpt (objGet r k) = true) :
    strOrArrOpt (objGet (wrapIfScalar r k0) k) = true := by
  by_cases hk : k = k0
  · subst hk
    cases hv : objGet r k with
    | none =>
      simp only [wrapIfScalar, hv]
      rw [hv] at h
      exact h
    | some v =>
      by_cases hg : (truthy v && !isArrV v) = true
      · simp only [wrapIfScalar, hv, if_pos hg]
        rw [objGet_objSet_self]
        rfl
      · simp only [wrapIfScalar, hv, if_neg hg]
        rw [hv] at h
        exact h
  · rw [wrapIfScalar_get_other r k0 k hk]
    exact h

theorem wrapReserved_atoms (r : Rec) (k : String) :
    atomsOf (objGet (wrapReserved r) k) = atomsOf (objGet r k) := by
  unfold wrapReserved
  rw [wrapIfScalar_atoms, wrapIfScalar_atoms]

theorem wrapReserved_shape (r : Rec) (k : String)
    (h : strOrArrOpt (objGet r k) = true) :
    strOrArrOpt (objGet (wrapReserved r) k) = true := by
  unfold wrapReserved
  exact wrapIfScalar_shape _ _ _ (wrapIfScalar_shape _ _ _ h)

theorem dedupe_pair (p q : Rec)
    (hk : identityKey (JVal.obj p) = identityKey (JVal.obj q)) :
    dedupeAndMergePatients [JVal.obj p, JVal.obj q]
      = [mergeRec (wrapReserved p) (JVal.obj q)] := by
  unfold dedupeAndMergePatients
  simp only [List.foldl]
  have h1 : dedupeStep [] (JVal.obj p)
      = [(identityKey (JVal.obj p), wrapReserved p)] := rfl
  rw [h1]
  unfold dedupeStep
  rw [← hk]
  have h2 : assocGet [(identityKey (JVal.obj p), wrapReserved p)]
      (identityKey (JVal.obj p)) = some (wrapReserved p) := by
    unfold assocGet
    rw [if_pos rfl]
  rw [h2]
  show (assocSet [(identityKey (JVal.obj p), wrapReserved p)]
      (identityKey (JVal.obj p))
      (mergeRec (wrapReserved p) (JVal.obj q))).map Prod.snd = _
  have h3 : assocSet [(identityKey (JVal.obj p), wrapReserved p)]
      (identityKey (JVal.obj p))
      (mergeRec (wrapReserved p) (JVal.obj q))
      = [(identityKey (JVal.obj p),
          mergeRec (wrapReserved p) (JVal.obj q))] := by
    unfold assocSet
    rw [if_pos rfl]
  rw [h3]
  rfl

/-! ## Claim theorems -/

/-- **C9.** FeeStringRepair maps the spec's example inputs as stated:
`repair("2 00.00") = "200.00"`, `repair("000.00") = "0.00"`, and
`repair("12345") = "123.45"`. -/
theorem cleanFee_spec_examples :
    cleanFeeScalar (some (JVal.str "2 00.00")) = "200.00" ∧
    cleanFeeScalar (some (JVal.str "000.00")) = "0.00" ∧
    cleanFeeScalar (some (JVal.str "12345")) = "123.45" :=
  ⟨by decide, by decide, by decide⟩

theorem normalizeRowsV_arr (w : JVal) :
    ∃ xs, normalizeRowsV w = JVal.arr xs := by
  cases w <;> exact ⟨_, rfl⟩

theorem rows_of_mem_entries_map {t : JVal} {sec : String} {v : JVal}
    (h : (sec, v) ∈ (jsEntries t).map
      (fun kv => (kv.1, normalizeRowsV kv.2))) :
    ∃ xs, v = JVal.arr xs := by
  rcases List.mem_map.mp h with ⟨kv, _, heq⟩
  have h2 := (Prod.mk.injEq _ _ _ _).mp heq
  obtain ⟨xs, hxs⟩ := normalizeRowsV_arr kv.2
  exact ⟨xs, by rw [← h2.2, hxs]⟩

/-- **C10.** For every input value whatsoever, every section value of the
mapping returned by `normalizeTables` is itself a sequence — never
missing, a bare scalar, or a mapping — so iterating any section's rows
needs no further shape checks. -/
theorem normalizeTables_rows_always_sequences (t : JVal) (sec : String)
    (v : JVal) (h : (sec, v) ∈ normalizeTables t) :
    ∃ xs, v = JVal.arr xs := by
  unfold normalizeTables at h
  by_cases ht : truthy t = false
  · rw [if_pos ht] at h
    cases h
  · rw [if_neg ht] at h
    cases t with
    | arr xs =>
      rw [List.mem_singleton] at h
      exact ⟨xs, ((Prod.mk.injEq _ _ _ _).mp h).2⟩
    | null => exact rows_of_mem_entries_map h
    | bool b => exact rows_of_mem_entries_map h
    | num n => exact rows_of_mem_entries_map h
    | str s => exact rows_of_mem_entries_map h
    | obj fs => exact rows_of_mem_entries_map h

theorem normalizeTables_rows_always_sequences_witness :
    ∃ xs, JVal.arr [JVal.num 5] = JVal.arr xs :=
  normalizeTables_rows_always_sequences (JVal.obj [("S", JVal.num 5)]) "S"
    (JVal.arr [JVal.num 5])
    (by rw [show normalizeTables (JVal.obj [("S", JVal.num 5)])
          = [("S", JVal.arr [JVal.num 5])] from rfl]
        exact List.mem_singleton.mpr rfl)

/-- **C3 counterexample.** On the claim's input
`{"0": {"Code": "99213"}, "1": {"Code": "99214"}}` the normalizer keeps
the two top-level entries as two sections named `"0"` and `"1"` — not one
section under the default `"Procedures"` name: treating a mapping as an
index-keyed collection happens one level down, for a section's value. -/
theorem normalizeTables_indexed_top_level_cex :
    normalizeTables (JVal.obj [("0", JVal.obj [("Code", JVal.str "99213")]),
        ("1", JVal.obj [("Code", JVal.str "99214")])]) =
      [("0", JVal.arr [JVal.str "99213"]),
       ("1", JVal.arr [JVal.str "99214"])] ∧
    (normalizeTables (JVal.obj [("0", JVal.obj [("Code", JVal.str "99213")]),
        ("1", JVal.obj [("Code", JVal.str "99214")])])).map Prod.fst ≠
      ["Procedures"] :=
  ⟨rfl, by decide⟩

/-- **C3 (amended).** The numeric-key projection applies to a *section's*
value: a section whose value is the index-keyed mapping
`{"10": b, "2": a}` is projected to the row sequence `[a, b]` in
ascending numeric key order (`2` before `10`, which is neither insertion
nor lexicographic order); the claim's input itself yields one section per
top-level entry, as the counterexample records. -/
theorem normalizeTables_numeric_key_order (a b : JVal) :
    normalizeTables (JVal.obj [("T", JVal.obj [("10", b), ("2", a)])]) =
      [("T", JVal.arr [a, b])] := rfl

/-- **C8 counterexample.** An ordered-sequence diagnosis row passes its
positions through `??`-defaulting only: the code component keeps the
surrounding whitespace of position 1, so it is not trimmed text. -/
theorem normalizeDiagRow_array_code_untrimmed :
    (normalizeDiagRow (JVal.arr [JVal.str "ICD-10", JVal.str " A12 ",
        JVal.str "flu"])).2.1 = JVal.str " A12 " ∧
    trimStr " A12 " ≠ " A12 " :=
  ⟨rfl, by decide⟩

/-- **C8 (amended).** For *mapping* diagnosis-row inputs the code and
diagnosis components of the output are trimmed text with no surrounding
whitespace (`String(x).trim()`); ordered-sequence inputs pass positions
0/1/2 through unmodified (type defaulting to `"ICD-10"`), without
trimming. -/
theorem normalizeDiagRow_mapping_trimmed (fs : Rec) :
    ∃ t c d, normalizeDiagRow (JVal.obj fs) = (t, JVal.str c, JVal.str d) ∧
      trimStr c = c ∧ trimStr d = d :=
  ⟨_, _, _, rfl, trimStr_idem _, trimStr_idem _⟩

/-- **C4 counterexample.** The assembler is NOT a total never-raising
function of the payload: the unrecognized payload mapping
`{"metadata": "hello"}` reaches the fallback arm with `meta` bound to the
truthy primitive `"hello"`, whose `"File Name"` read is `undefined`, so
the strict-mode assignment `meta["File Name"] = file.name` raises
`TypeError`. -/
theorem assembleResult_raises_on_primitive_metadata_cex :
    assembleResult (JVal.obj [("metadata", JVal.str "hello")]) "scan.pdf"
      = Except.error () := rfl

/-- **C4 (amended).** On an entirely empty or unrecognized payload
mapping — none of the canonical fields (`patients`, `procedure_tables`,
`diagnosis_tables`) nor the legacy fields (`medical_billing_codes`,
`diagnosis_codes`) holds a truthy value — whose effective metadata
(`resData.metadata || resData`) is a mapping or a sequence, the assembler
raises nothing and the assembled result has an empty patient sequence and
empty procedure and diagnosis table sets.  A truthy non-object effective
metadata instead raises `TypeError` at the strict-mode
`meta["File Name"]` assignment. -/
theorem assembleResult_empty_on_unrecognized (fs : Rec) (fName : String)
    (hA : truthy (jsOrO (objGetV (JVal.obj fs) "patients")
      (jsOrO (objGetV (JVal.obj fs) "procedure_tables")
        (jsOrO (objGetV (JVal.obj fs) "diagnosis_tables")
          (JVal.str "")))) = false)
    (hB : truthy (jsOrO (objGetV (JVal.obj fs) "medical_billing_codes")
      (jsOrO (objGetV (JVal.obj fs) "diagnosis_codes")
        (JVal.str ""))) = false)
    (hM : isObjLike (jsOrO (objGetV (JVal.obj fs) "metadata")
      (JVal.obj fs)) = true) :
    ∃ res, assembleResult (JVal.obj fs) fName = Except.ok res ∧
      res.patients = [] ∧ res.procTables = [] ∧ res.diagTables = [] := by
  unfold assembleResult buildItemFromResponse
  rw [if_neg (by simp [truthy]), if_neg (by simp [hA]), if_neg (by simp [hB])]
  cases hmv : jsOrO (objGetV (JVal.obj fs) "metadata") (JVal.obj fs) with
  | obj ms =>
    simp only [buildFallbackItem]
    by_cases hg : truthy (jsOrO (objGet ms "File Name") (JVal.str ""))
      = true
    · rw [if_pos hg]
      exact ⟨⟨[], [], []⟩, rfl, rfl, rfl, rfl⟩
    · rw [if_neg hg]
      exact ⟨⟨[], [], []⟩, rfl, rfl, rfl, rfl⟩
  | arr ms =>
    exact ⟨⟨[], [], []⟩, rfl, rfl, rfl, rfl⟩
  | null => rw [hmv] at hM; exact absurd hM (by simp [isObjLike])
  | bool b => rw [hmv] at hM; exact absurd hM (by simp [isObjLike])
  | num n => rw [hmv] at hM; exact absurd hM (by simp [isObjLike])
  | str s => rw [hmv] at hM; exact absurd hM (by simp [isObjLike])

/-- **C2 counterexample.** FeeStringRepair is not idempotent:
`repair("00") = "00.00"` (two characters are too short for the
decimal-insertion rule, so `.00` is appended), but repairing the result
collapses the zero run: `repair("00.00") = "0.00"`. -/
theorem cleanFee_not_idempotent_cex :
    cleanFeeScalar (some (JVal.str "00")) = "00.00" ∧
    cleanFeeScalar (some (JVal.str (cleanFeeScalar (some (JVal.str "00")))))
      = "0.00" ∧
    ("00.00" : String) ≠ "0.00" :=
  ⟨by decide, by decide, by decide⟩

/-- **C2 (amended).** FeeStringRepair is idempotent on every scalar whose
trimmed text contains no whitespace and none of the leading-noise
characters (pipe, bracket, parenthesis) and does not begin with two
zeros; outside this domain a second application can differ (whitespace
exposed by noise-stripping is re-trimmed, and an all-zero integer part
that the padding rules produce is collapsed on the next pass — see the
counterexample). -/
theorem cleanFee_idem_safe (s : String)
    (hws : ∀ c ∈ trimL s.data, isWsChar c = false)
    (hnoise : ∀ c ∈ trimL s.data, isNoiseChar c = false)
    (h00 : startsDoubleZero (trimL s.data) = false) :
    cleanFeeScalar (some (JVal.str (cleanFeeScalar (some (JVal.str s)))))
      = cleanFeeScalar (some (JVal.str s)) := by
  show cleanFeeStr (cleanFeeStr s) = cleanFeeStr s
  have hdata : ∀ l : List Char, (String.mk l).data = l := fun l => rfl
  unfold cleanFeeStr
  rw [hdata]
  congr 1
  by_cases hu : trimL s.data = []
  · have h1 : cleanFeeList s.data = [] := by
      unfold cleanFeeList
      rw [if_pos (by rw [hu]; rfl)]
    rw [h1]
    rfl
  · have hstep : cleanFeeList s.data
        = padDecimals (insertDec (trimL s.data)) := by
      unfold cleanFeeList
      rw [if_neg (by simp [isEmpty_false_of_ne_nil _ hu])]
      have hcol : collapseWs (trimL s.data) = trimL s.data :=
        collapseWsAux_of_no_ws false _ hws
      rw [hcol, dropWhile_eq_self_of_all isNoiseChar _ hnoise,
        joinSplitFee_of_no_ws _ hws, zeroCollapse_of_not00 _ h00]
    rw [hstep]
    by_cases h6 : ((trimL s.data).all Char.isDigit
        && decide ((trimL s.data).length > 2)) = true
    · have h6' := h6
      rw [Bool.and_eq_true, decide_eq_true_eq] at h6'
      obtain ⟨hall, hlen⟩ := h6'
      have halls : ∀ x ∈ trimL s.data, Char.isDigit x = true := by
        simpa using hall
      have hdrop2 :
          ((trimL s.data).drop ((trimL s.data).length - 2)).length = 2 := by
        rw [List.length_drop]
        omega
      obtain ⟨b1, b2, hb⟩ := eq_pair_of_length_two _ hdrop2
      have hins : insertDec (trimL s.data)
          = (trimL s.data).take ((trimL s.data).length - 2)
            ++ '.' :: [b1, b2] := by
        unfold insertDec
        rw [if_pos h6, hb]
      have hb1 : b1.isDigit = true :=
        halls b1 ((List.drop_subset _ _)
          (by rw [hb]; exact List.mem_cons_self _ _))
      have hb2 : b2.isDigit = true :=
        halls b2 ((List.drop_subset _ _)
          (by rw [hb]; exact List.mem_cons_of_mem _ (List.mem_cons_self _ _)))
      have hpadA : padDecimals ((trimL s.data).take ((trimL s.data).length - 2)
            ++ '.' :: [b1, b2])
          = (trimL s.data).take ((trimL s.data).length - 2)
            ++ '.' :: [b1, b2] :=
        padDecimals_of_endsInDot2 _ (endsInDot2_append _ _ _ hb1 hb2)
      rw [hins, hpadA]
      apply cleanFeeList_fixpoint
      · simp
      · intro c hc
        rcases List.mem_append.mp hc with h1 | h2
        · exact hws c ((List.take_subset _ _) h1)
        · rcases List.mem_cons.mp h2 with rfl | h3
          · decide
          · rcases List.mem_cons.mp h3 with rfl | h4
            · exact not_ws_of_digit _ hb1
            · rw [List.mem_singleton.mp h4]
              exact not_ws_of_digit _ hb2
      · intro c hc
        rcases List.mem_append.mp hc with h1 | h2
        · exact hnoise c ((List.take_subset _ _) h1)
        · rcases List.mem_cons.mp h2 with rfl | h3
          · decide
          · rcases List.mem_cons.mp h3 with rfl | h4
            · exact not_noise_of_digit _ hb1
            · rw [List.mem_singleton.mp h4]
              exact not_noise_of_digit _ hb2
      · apply starts00_prefix _ ((trimL s.data).drop ((trimL s.data).length - 2)) _ ?_ ?_
        · have hlt : ((trimL s.data).take ((trimL s.data).length - 2)).length
              = (trimL s.data).length - 2 := by
            rw [List.length_take]
            omega
          intro hnil
          rw [hnil] at hlt
          simp at hlt
          omega
        · rw [List.take_append_drop]
          exact h00
      · exact insertDec_of_dot _ (by simp)
      · exact hpadA
    · have hins0 : insertDec (trimL s.data) = trimL s.data := by
        unfold insertDec
        rw [if_neg h6]
      rw [hins0]
      by_cases h7 : (isNumShape (trimL s.data)
          && !endsInDot2 (trimL s.data)) = true
      · have h7' := h7
        rw [Bool.and_eq_true] at h7'
        obtain ⟨hnum, hend⟩ := h7'
        have hnum' := hnum
        unfold isNumShape at hnum'
        rw [Bool.and_eq_true] at hnum'
        obtain ⟨hIne', hfr⟩ := hnum'
        have hIne : (trimL s.data).takeWhile Char.isDigit ≠ [] := by
          intro hnil
          rw [hnil] at hIne'
          simp at hIne'
        cases hdw : (trimL s.data).dropWhile Char.isDigit with
        | nil =>
          have hpadB : padDecimals (trimL s.data)
              = trimL s.data ++ ['.', '0', '0'] := by
            unfold padDecimals
            rw [if_pos h7, hdw]
          rw [hpadB]
          apply cleanFeeList_fixpoint
          · simp
          · intro c hc
            rcases List.mem_append.mp hc with h1 | h2
            · exact hws c h1
            · rcases List.mem_cons.mp h2 with rfl | h3
              · decide
              · rcases List.mem_cons.mp h3 with rfl | h4
                · decide
                · rw [List.mem_singleton.mp h4]
                  decide
          · intro c hc
            rcases List.mem_append.mp hc with h1 | h2
            · exact hnoise c h1
            · rcases List.mem_cons.mp h2 with rfl | h3
              · decide
              · rcases List.mem_cons.mp h3 with rfl | h4
                · decide
                · rw [List.mem_singleton.mp h4]
                  decide
          · have hform : trimL s.data ++ ['.', '0', '0']
                = trimL s.data ++ '.' :: ['0', '0'] := rfl
            rw [hform]
            apply starts00_prefix _ [] _ hu
            rw [List.append_nil]
            exact h00
          · exact insertDec_of_dot _ (by simp)
          · have hform : trimL s.data ++ ['.', '0', '0']
                = trimL s.data ++ '.' :: ['0', '0'] := rfl
            rw [hform]
            exact padDecimals_of_endsInDot2 _
              (endsInDot2_append _ '0' '0' (by decide) (by decide))
        | cons d frac =>
          rw [hdw] at hfr
          simp only [fracShapeOk] at hfr
          rw [Bool.and_eq_true, Bool.and_eq_true, decide_eq_true_eq] at hfr
          obtain ⟨⟨hd, hfne⟩, hfall⟩ := hfr
          subst hd
          by_cases hf1 : frac.length = 1
          · obtain ⟨f, hf⟩ : ∃ f, frac = [f] := by
              cases frac with
              | nil => simp at hf1
              | cons f fr =>
                cases fr with
                | nil => exact ⟨f, rfl⟩
                | cons g fr' => simp at hf1
            subst hf
            have hpadC : padDecimals (trimL s.data)
                = trimL s.data ++ ['0'] := by
              unfold padDecimals
              rw [if_pos h7, hdw]
              show (if [f].length = 1 then trimL s.data ++ ['0']
                else trimL s.data) = trimL s.data ++ ['0']
              rw [if_pos hf1]
            have hfd : f.isDigit = true := by simpa using hfall
            have hsplitu : (trimL s.data).takeWhile Char.isDigit
                ++ '.' :: [f] = trimL s.data := by
              conv_rhs =>
                rw [← List.takeWhile_append_dropWhile Char.isDigit
                  (trimL s.data)]
              rw [hdw]
            have htB : trimL s.data ++ ['0']
                = (trimL s.data).takeWhile Char.isDigit
                  ++ '.' :: [f, '0'] := by
              conv_lhs => rw [← hsplitu]
              simp
            rw [hpadC, htB]
            apply cleanFeeList_fixpoint
            · simp
            · intro c hc
              rcases List.mem_append.mp hc with h1 | h2
              · exact not_ws_of_digit c (List.mem_takeWhile_imp h1)
              · rcases List.mem_cons.mp h2 with rfl | h3
                · decide
                · rcases List.mem_cons.mp h3 with rfl | h4
                  · exact not_ws_of_digit _ hfd
                  · rw [List.mem_singleton.mp h4]
                    decide
            · intro c hc
              rcases List.mem_append.mp hc with h1 | h2
              · exact not_noise_of_digit c (List.mem_takeWhile_imp h1)
              · rcases List.mem_cons.mp h2 with rfl | h3
                · decide
                · rcases List.mem_cons.mp h3 with rfl | h4
                  · exact not_noise_of_digit _ hfd
                  · rw [List.mem_singleton.mp h4]
                    decide
            · apply starts00_prefix _
                ((trimL s.data).dropWhile Char.isDigit) _ hIne
              rw [List.takeWhile_append_dropWhile]
              exact h00
            · exact insertDec_of_dot _ (by simp)
            · exact padDecimals_of_endsInDot2 _
                (endsInDot2_append _ f '0' hfd (by decide))
          · have hpadD : padDecimals (trimL s.data) = trimL s.data := by
              unfold padDecimals
              rw [if_pos h7, hdw]
              show (if frac.length = 1 then trimL s.data ++ ['0']
                else trimL s.data) = trimL s.data
              rw [if_neg hf1]
            rw [hpadD]
            exact cleanFeeList_fixpoint _ hu hws hnoise h00 hins0 hpadD
      · have hpad0 : padDecimals (trimL s.data) = trimL s.data := by
          unfold padDecimals
          rw [if_neg h7]
        rw [hpad0]
        exact cleanFeeList_fixpoint _ hu hws hnoise h00 hins0 hpad0

theorem cleanFee_idem_safe_witness :
    cleanFeeScalar (some (JVal.str (cleanFeeScalar (some
        (JVal.str "12345")))))
      = cleanFeeScalar (some (JVal.str "12345")) :=
  cleanFee_idem_safe "12345" (by decide) (by decide) (by decide)

/-- **C5 counterexample.** A code-shaped token embedded inside a nested
mapping value is NOT collected into the highlight set: the mapping
stringifies to `[object Object]`, which contains no code-shaped token, so
the patient's highlight set stays empty. -/
theorem highlight_nested_mapping_cex :
    highlightCodes [("Patient Name", JVal.str "Z"),
      ("Info", JVal.obj [("Code", JVal.str "A12")])] = [] ∧
    isCodeToken "A12" = true :=
  ⟨by decide, by decide⟩

/-- **C5 (amended).** Every field value is stringified and scanned for the
code-shaped pattern and all trimmed matches are collected; in particular a
code-shaped token that occurs as an element of a sequence-valued field is
collected (sequences flatten to comma-separated text, and a comma is a
word boundary).  A token inside a nested *mapping* value, however, is
lost, because a mapping stringifies to `[object Object]` (see the
counterexample). -/
theorem highlight_collects_sequence_element (p : Rec) (k : String)
    (xs : List JVal) (s : String) (hk : (k, JVal.arr xs) ∈ p)
    (hs : JVal.str s ∈ xs) (ht : isCodeToken s = true) :
    s ∈ highlightCodes p := by
  obtain ⟨p1, p2, hp⟩ := List.append_of_mem hk
  subst hp
  obtain ⟨as, bs, hxs⟩ := List.append_of_mem hs
  subst hxs
  unfold highlightCodes
  rw [List.foldl_append]
  simp only [List.foldl_cons]
  apply highlight_fold_acc
  unfold highlightStep
  apply mem_foldl_addUnique_of_mem
  show s ∈ (scanCodes false
      (jsArrToString (as ++ JVal.str s :: bs)).data).map trimStr
  obtain ⟨A, B, hAB, hA, hB⟩ := jsArr_split s bs as
  have hscan : s ∈ scanCodes false
      (jsArrToString (as ++ JVal.str s :: bs)).data := by
    unfold scanCodes
    rw [hAB]
    rcases hA with h0 | ⟨u, hu⟩
    · rw [h0, List.nil_append]
      exact scan_token_head s B ht hB _ (le_refl _)
    · rw [hu]
      have hassoc : (u ++ [',']) ++ s.data ++ B
          = u ++ ',' :: (s.data ++ B) := by simp
      rw [hassoc]
      exact scanAux_skip (s.data ++ B) s u.length u (le_refl _) false _
        (le_refl _) (scan_token_head s B ht hB _ (le_refl _))
  have hmem := List.mem_map_of_mem trimStr hscan
  rw [codeToken_trim s ht] at hmem
  exact hmem

theorem highlight_collects_sequence_element_witness :
    "A12" ∈ highlightCodes [("Info",
      JVal.arr [JVal.str "x", JVal.str "A12"])] :=
  highlight_collects_sequence_element _ "Info"
    [JVal.str "x", JVal.str "A12"] "A12"
    (List.mem_singleton.mpr rfl)
    (List.mem_cons_of_mem _ (List.mem_singleton.mpr rfl)) (by decide)

/-- **C7 counterexample.** A record whose reserved short-name field
`"Diagnosis"` holds a truthy bare scalar is stored by the reconciler with
that field unchanged — still a bare scalar, not a one-element sequence —
refuting the claim that every reserved per-patient table field (including
`"Procedure / Billing"` / `"Diagnosis"`) is wrapped. -/
theorem dedupe_short_reserved_not_wrapped_cex :
    dedupeAndMergePatients
        [JVal.obj [("Patient Name", JVal.str "A"),
                   ("Diagnosis", JVal.str "x")]] =
      [[("Patient Name", JVal.str "A"), ("Diagnosis", JVal.str "x")]] ∧
    isArrV (JVal.str "x") = false :=
  ⟨rfl, rfl⟩

/-- **C7 (amended).** When the reconciler first sees an identity key it
stores a field-by-field clone in which exactly the two `"(All Tables)"`
reserved fields are forced to sequences: a truthy bare-scalar value of
`"Procedure / Billing (All Tables)"` or `"Diagnosis (All Tables)"` is
wrapped as a one-element sequence, while the short-name fields
`"Procedure / Billing"` and `"Diagnosis"` (like every other field) are
stored unchanged. -/
theorem dedupe_first_seen_wraps_all_tables (p : Rec) (v w : JVal)
    (hv : objGet p "Procedure / Billing (All Tables)" = some v)
    (htv : truthy v = true) (hav : isArrV v = false)
    (hw : objGet p "Diagnosis (All Tables)" = some w)
    (htw : truthy w = true) (haw : isArrV w = false) :
    dedupeAndMergePatients [JVal.obj p] = [wrapReserved p] ∧
    objGet (wrapReserved p) "Procedure / Billing (All Tables)"
      = some (JVal.arr [v]) ∧
    objGet (wrapReserved p) "Diagnosis (All Tables)"
      = some (JVal.arr [w]) ∧
    objGet (wrapReserved p) "Diagnosis" = objGet p "Diagnosis" ∧
    objGet (wrapReserved p) "Procedure / Billing"
      = objGet p "Procedure / Billing" := by
  refine ⟨rfl, ?_, ?_, ?_, ?_⟩
  · unfold wrapReserved
    rw [wrapIfScalar_get_other _ _ _ (by decide)]
    exact wrapIfScalar_get_self p _ v hv htv hav
  · unfold wrapReserved
    refine wrapIfScalar_get_self _ _ w ?_ htw haw
    rw [wrapIfScalar_get_other _ _ _ (by decide)]
    exact hw
  · unfold wrapReserved
    rw [wrapIfScalar_get_other _ _ _ (by decide),
      wrapIfScalar_get_other _ _ _ (by decide)]
  · unfold wrapReserved
    rw [wrapIfScalar_get_other _ _ _ (by decide),
      wrapIfScalar_get_other _ _ _ (by decide)]

theorem dedupe_first_seen_wraps_all_tables_witness :
    dedupeAndMergePatients
        [JVal.obj [("Patient Name", JVal.str "A"),
          ("Procedure / Billing (All Tables)", JVal.str "r1"),
          ("Diagnosis (All Tables)", JVal.str "d1"),
          ("Diagnosis", JVal.str "x")]]
      = [wrapReserved [("Patient Name", JVal.str "A"),
          ("Procedure / Billing (All Tables)", JVal.str "r1"),
          ("Diagnosis (All Tables)", JVal.str "d1"),
          ("Diagnosis", JVal.str "x")]] ∧
    objGet (wrapReserved [("Patient Name", JVal.str "A"),
          ("Procedure / Billing (All Tables)", JVal.str "r1"),
          ("Diagnosis (All Tables)", JVal.str "d1"),
          ("Diagnosis", JVal.str "x")])
        "Procedure / Billing (All Tables)"
      = some (JVal.arr [JVal.str "r1"]) ∧
    objGet (wrapReserved [("Patient Name", JVal.str "A"),
          ("Procedure / Billing (All Tables)", JVal.str "r1"),
          ("Diagnosis (All Tables)", JVal.str "d1"),
          ("Diagnosis", JVal.str "x")]) "Diagnosis (All Tables)"
      = some (JVal.arr [JVal.str "d1"]) ∧
    objGet (wrapReserved [("Patient Name", JVal.str "A"),
          ("Procedure / Billing (All Tables)", JVal.str "r1"),
          ("Diagnosis (All Tables)", JVal.str "d1"),
          ("Diagnosis", JVal.str "x")]) "Diagnosis"
      = objGet [("Patient Name", JVal.str "A"),
          ("Procedure / Billing (All Tables)", JVal.str "r1"),
          ("Diagnosis (All Tables)", JVal.str "d1"),
          ("Diagnosis", JVal.str "x")] "Diagnosis" ∧
    objGet (wrapReserved [("Patient Name", JVal.str "A"),
          ("Procedure / Billing (All Tables)", JVal.str "r1"),
          ("Diagnosis (All Tables)", JVal.str "d1"),
          ("Diagnosis", JVal.str "x")]) "Procedure / Billing"
      = objGet [("Patient Name", JVal.str "A"),
          ("Procedure / Billing (All Tables)", JVal.str "r1"),
          ("Diagnosis (All Tables)", JVal.str "d1"),
          ("Diagnosis", JVal.str "x")] "Procedure / Billing" :=
  dedupe_first_seen_wraps_all_tables _ (JVal.str "r1") (JVal.str "d1")
    rfl (by decide) rfl rfl (by decide) rfl

theorem assembleResult_empty_on_unrecognized_witness :
    ∃ res, assembleResult (JVal.obj [("note", JVal.str "x")]) "scan.pdf"
        = Except.ok res ∧
      res.patients = [] ∧ res.procTables = [] ∧ res.diagTables = [] :=
  assembleResult_empty_on_unrecognized [("note", JVal.str "x")] "scan.pdf"
    (by decide) (by decide) (by decide)


/-- **C1 counterexample.** The reconciler merge does NOT preserve every
non-placeholder value: merging `{"Patient Name":"A","Score":0}` into the
stored record `{"Patient Name":"A","Score":"NIL"}` keeps the placeholder
text `"NIL"` in the `Score` slot and drops the falsy (but present and
non-placeholder) numeric value `0` — the absent-slot branch requires the
incoming value to be truthy, and no other branch fires for a
scalar-on-scalar collision. -/
theorem dedupe_merge_drops_value_cex :
    dedupeAndMergePatients
        [JVal.obj [("Patient Name", JVal.str "A"),
                   ("Score", JVal.str "NIL")],
         JVal.obj [("Patient Name", JVal.str "A"),
                   ("Score", JVal.num 0)]]
      = [[("Patient Name", JVal.str "A"), ("Score", JVal.str "NIL")]] ∧
    placeholderAtom (JVal.str "NIL") = true ∧
    placeholderAtom (JVal.num 0) = false ∧
    (JVal.num 0) ∉ atomsOf (some (JVal.str "NIL")) := by
  refine ⟨rfl, rfl, rfl, ?_⟩
  intro hmem
  exact JVal.noConfusion (List.mem_singleton.mp hmem)

/-- **C1 (amended).** For two raw records with the same identity key whose
field values are all texts or sequences, the merged record preserves every
non-placeholder atom (a text value, or an element of a sequence value;
placeholders are `""` and `"NIL"`): an atom of the first record survives at
its key unconditionally, and an atom of the second record either survives
at its key or loses a scalar-text conflict to an existing non-placeholder
text that the merge keeps. -/
theorem dedupe_merge_preserves_values (p q : Rec)
    (hk : identityKey (JVal.obj p) = identityKey (JVal.obj q))
    (hp : ∀ kv ∈ p, strOrArrV kv.2 = true)
    (hq : ∀ kv ∈ q, strOrArrV kv.2 = true) :
    ∃ r, dedupeAndMergePatients [JVal.obj p, JVal.obj q] = [r] ∧
      ∀ k a, placeholderAtom a = false →
        (a ∈ atomsOf (objGet p k) → a ∈ atomsOf (objGet r k)) ∧
        (a ∈ atomsOf (objGet q k) →
          a ∈ atomsOf (objGet r k) ∨
            ∃ s, objGet r k = some (JVal.str s) ∧ s ≠ "" ∧ s ≠ "NIL") := by
  refine ⟨mergeRec (wrapReserved p) (JVal.obj q), dedupe_pair p q hk, ?_⟩
  intro k a hpl
  have hWatoms : atomsOf (objGet (wrapReserved p) k) = atomsOf (objGet p k) :=
    wrapReserved_atoms p k
  have hWshape : strOrArrOpt (objGet (wrapReserved p) k) = true :=
    wrapReserved_shape p k (strOrArrOpt_objGet p k hp)
  have hrec : mergeRec (wrapReserved p) (JVal.obj q)
      = (dedupKeysAux [] (q.map Prod.fst)).foldl
          (mergeStep (JVal.obj q)) (wrapReserved p) := rfl
  by_cases hkq : k ∈ dedupKeysAux [] (q.map Prod.fst)
  · have hnd := nodup_dedupKeysAux (q.map Prod.fst) []
    have hslot : objGet (mergeRec (wrapReserved p) (JVal.obj q)) k
        = mergeSlot (objGet (wrapReserved p) k) (objGetV (JVal.obj q) k) := by
      rw [hrec]
      exact foldl_mergeStep_mem (JVal.obj q) _ _ k hnd hkq
    have hmem : k ∈ q.map Prod.fst :=
      ((mem_dedupKeysAux (q.map Prod.fst) [] k).mp hkq).1
    rcases objGet_isSome_of_mem q k hmem with ⟨v, hv⟩
    have hvv : objGetV (JVal.obj q) k = some v := hv
    have hvsa : strOrArrV v = true := hq (k, v) (objGet_mem q k v hv)
    rw [hvv] at hslot
    constructor
    · intro hap
      have hap' : a ∈ atomsOf (objGet (wrapReserved p) k) := by
        rw [hWatoms]
        exact hap
      rw [hslot, mergeSlot_eq]
      cases hmf : mergeField (objGet (wrapReserved p) k) v with
      | none => exact hap'
      | some w =>
        have hpres := mergeField_preserves_existing
          (objGet (wrapReserved p) k) v hWshape a hap' hpl
        rw [hmf] at hpres
        exact hpres
    · intro haq
      have haq' : a ∈ atomsOf (some v) := by
        rw [hv] at haq
        exact haq
      rw [hslot, mergeSlot_eq]
      cases hmf : mergeField (objGet (wrapReserved p) k) v with
      | none =>
        exfalso
        rcases mergeField_none_cases _ v hmf with ⟨-, htv⟩
        cases v with
        | str t =>
          have ht : t = "" := by
            simpa [truthy] using htv
          have ha' : a = JVal.str t := by
            simpa [atomsOf] using haq'
          rw [ha', ht] at hpl
          simp [placeholderAtom] at hpl
        | arr ys => simp [truthy] at htv
        | null => simp [strOrArrV] at hvsa
        | bool b => simp [strOrArrV] at hvsa
        | num n => simp [strOrArrV] at hvsa
        | obj fs => simp [strOrArrV] at hvsa
      | some w =>
        have hh := mergeField_preserves_incoming
          (objGet (wrapReserved p) k) v hWshape hvsa a haq' hpl
        rw [hmf] at hh
        exact hh
  · have huntouched : objGet (mergeRec (wrapReserved p) (JVal.obj q)) k
        = objGet (wrapReserved p) k := by
      rw [hrec]
      exact foldl_mergeStep_not_mem (JVal.obj q) _ _ k hkq
    have hqnone : objGet q k = none := by
      apply objGet_eq_none_of_not_mem
      intro hm
      exact hkq ((mem_dedupKeysAux (q.map Prod.fst) [] k).mpr
        ⟨hm, by simp⟩)
    constructor
    · intro hap
      rw [huntouched, hWatoms]
      exact hap
    · intro haq
      rw [hqnone] at haq
      simp [atomsOf] at haq

set_option maxRecDepth 4096 in
theorem dedupe_merge_preserves_values_witness :
    ∃ r, dedupeAndMergePatients
        [JVal.obj [("Patient Name", JVal.str "A"),
                   ("Diagnosis", JVal.arr [JVal.str "x"])],
         JVal.obj [("Patient Name", JVal.str "A"),
                   ("Diagnosis", JVal.arr [JVal.str "y"])]] = [r] ∧
      ∀ k a, placeholderAtom a = false →
        (a ∈ atomsOf (objGet [("Patient Name", JVal.str "A"),
              ("Diagnosis", JVal.arr [JVal.str "x"])] k) →
          a ∈ atomsOf (objGet r k)) ∧
        (a ∈ atomsOf (objGet [("Patient Name", JVal.str "A"),
              ("Diagnosis", JVal.arr [JVal.str "y"])] k) →
          a ∈ atomsOf (objGet r k) ∨
            ∃ s, objGet r k = some (JVal.str s) ∧ s ≠ "" ∧ s ≠ "NIL") :=
  dedupe_merge_preserves_values
    [("Patient Name", JVal.str "A"), ("Diagnosis", JVal.arr [JVal.str "x"])]
    [("Patient Name", JVal.str "A"), ("Diagnosis", JVal.arr [JVal.str "y"])]
    rfl (by decide) (by decide)
